import Mathlib

/-!
# A simulated heap allocator (`malloc_` / `free_`) over a fixed address space

Shallow embedding of `src/main.cpp`.

* `std::list<mem_area_t>` is a `List list_node`; a list node carries the identity
  `iter` that a C++ iterator to it denotes, and its payload `val`.  New nodes get the
  identity `fresh`, which is then advanced, so an identity is never used twice.  An
  iterator to an erased node points at nothing, and using it is a fault; in the states
  the program reaches no such iterator is kept (`Inv.stack_sound`, `Inv.index_sound`),
  so it makes no difference that the C++ heap may hand out the address of an erased node
  again.
* `std::stack<iterator>` is a `List Nat` of node identities whose head is the top.
* `std::vector<optional<iterator>>` of size `MEMORY_CAPACITY` is a function from the slot
  number to the optional identity; every access checks the slot number against the size.
* The four function-local statics are the four fields of `allocator_state`.
* A call either returns (`Except.ok (returned int, state after)`), or stops at a failed
  `assert` (`fault.assertion line`, the build has no `NDEBUG`), or does something the
  language leaves undefined (`fault.undefined line`: an iterator that points at no node of
  the list it is used with, or a vector subscript outside the vector).
* `size_t` is 64 bit and `int` is 32 bit; sums of `size_t` values are taken modulo `2^64`.
-/

namespace Allocator

/-- The constant `MEMORY_CAPACITY` (line 11). -/
def MEMORY_CAPACITY : Nat := 1000

/-- Number of values of a `size_t`. -/
def SIZE_MOD : Nat := 18446744073709551616

/-- The enumeration `mem_state_t` (lines 13-18). -/
inductive mem_state_t where
  | busy
  | free
  | invalid
  deriving DecidableEq, Repr

/-- The structure `mem_area_t` (lines 20-31). -/
structure mem_area_t where
  start : Nat
  length : Nat
  state : mem_state_t
  deriving DecidableEq, Repr

/-- One node of a `std::list<mem_area_t>`: `iter` is what an iterator to the node
denotes, `val` is the stored `mem_area_t`. -/
structure list_node where
  iter : Nat
  val : mem_area_t
  deriving DecidableEq, Repr

deriving instance DecidableEq for Except

/-- How a call can stop without returning. -/
inductive fault where
  | assertion (line : Nat)
  | undefined (line : Nat)
  deriving DecidableEq, Repr

/-- The four function-local statics of the program, and the next unused node identity. -/
structure allocator_state where
  /-- The list of `__get_mem_areas_list` (the Ledger). -/
  mem_areas : List list_node
  /-- The list of `__get_invalid_mem_areas_list` (the Graveyard). -/
  invalid_mem_areas : List list_node
  /-- The stack of `__get_last_freed_mem_areas` (the Recency Stack), top first. -/
  last_freed_mem_areas : List Nat
  /-- The vector of `__get_cells_to_mem_area_map` (the Address Index). -/
  cells_to_mem_area_map : Nat → Option Nat
  /-- The identity the next created list node gets. -/
  fresh : Nat

/-- The statics as their initialisers leave them (lines 37-65): one free area over the
whole space, an empty list of invalid areas, a stack holding `begin()` of the area list,
and `MEMORY_CAPACITY` empty slots. -/
def init : allocator_state where
  mem_areas := [⟨0, ⟨0, MEMORY_CAPACITY, mem_state_t.free⟩⟩]
  invalid_mem_areas := []
  last_freed_mem_areas := [0]
  cells_to_mem_area_map := fun _ => none
  fresh := 1

/-! ## The `std::list` operations the program uses -/

/-- Dereference an iterator: the node of the list it points at, if any. -/
def list_find (it : Nat) : List list_node → Option list_node
  | [] => none
  | n :: rest => if n.iter = it then some n else list_find it rest

/-- The call `list.insert(pos, x)`: put `x` right before the node `pos` points at. -/
def list_insert (pos : Nat) (x : list_node) : List list_node → List list_node
  | [] => []
  | n :: rest => if n.iter = pos then x :: n :: rest else n :: list_insert pos x rest

/-- The call `list.erase(pos)`, also the removing half of `splice`. -/
def list_erase (pos : Nat) : List list_node → List list_node
  | [] => []
  | n :: rest => if n.iter = pos then rest else n :: list_erase pos rest

/-- An assignment through an iterator: `it->field = ...`. -/
def list_modify (it : Nat) (f : mem_area_t → mem_area_t) : List list_node → List list_node
  | [] => []
  | n :: rest =>
    if n.iter = it then ⟨n.iter, f n.val⟩ :: rest else n :: list_modify it f rest

/-- The call `next(it)`: the node after the one `it` points at; `none` is `end()`. -/
def list_next (it : Nat) : List list_node → Option list_node
  | [] => none
  | n :: rest => if n.iter = it then rest.head? else list_next it rest

/-- The call `prev(it)`: the node before the one `it` points at, if there is one. -/
def list_prev (it : Nat) : List list_node → Option list_node
  | [] => none
  | [_] => none
  | p :: n :: rest => if n.iter = it then some p else list_prev it (n :: rest)

/-- The test `it == list.begin()`. -/
def is_begin (it : Nat) : List list_node → Bool
  | [] => false
  | n :: _ => decide (n.iter = it)

/-- What an iterator kept in the stack points at: a node of the area list or a node of
the list of invalid areas. -/
def deref (areas invalid_areas : List list_node) (it : Nat) : Option list_node :=
  match list_find it areas with
  | some n => some n
  | none => list_find it invalid_areas

/-- The conversion `static_cast<int>(size_t)` (line 110). -/
def to_int (x : Nat) : Int :=
  if x % 4294967296 < 2147483648 then Int.ofNat (x % 4294967296)
  else Int.ofNat (x % 4294967296) - 4294967296

/-! ## The program -/

/-- The function `__free_space` (lines 68-78): the total length of the free areas; the
assertion of line 72 fails at an invalid area. -/
def __free_space : List list_node → Except fault Nat
  | [] => .ok 0
  | n :: rest =>
    if n.val.state = mem_state_t.invalid then .error (fault.assertion 72)
    else
      match __free_space rest with
      | .error e => .error e
      | .ok r =>
        if n.val.state = mem_state_t.free then .ok ((n.val.length + r) % SIZE_MOD)
        else .ok r

/-- The function `malloc_` (lines 80-114). -/
def malloc_ (s : allocator_state) (a_size : Nat) : Except fault (Int × allocator_state) :=
  match __free_space s.mem_areas with
  | .error e => .error e
  | .ok space =>
    -- line 83
    if (if s.last_freed_mem_areas.isEmpty then space = 0 else space ≠ 0) then
      match s.last_freed_mem_areas with
      | [] => .ok (-1, s)
      | top :: rest =>
        match deref s.mem_areas s.invalid_mem_areas top with
        | none => .error (fault.undefined 85)
        | some last_freed_area =>
          if last_freed_area.val.length ≥ a_size then
            -- line 87
            if last_freed_area.val.state = mem_state_t.invalid then
              .error (fault.assertion 87)
            else
              match list_find top s.mem_areas with
              | none => .error (fault.undefined 93)
              | some _ =>
                let new_addr := last_freed_area.val.start
                let new_busy_area : list_node :=
                  ⟨s.fresh, ⟨new_addr, a_size, mem_state_t.busy⟩⟩
                let areas1 := list_insert top new_busy_area s.mem_areas
                let new_free_area : list_node :=
                  ⟨s.fresh + 1,
                    ⟨(new_busy_area.val.start + new_busy_area.val.length) % SIZE_MOD,
                      last_freed_area.val.length - a_size, mem_state_t.free⟩⟩
                let split : Bool := decide (last_freed_area.val.length > a_size)
                let areas2 := if split then list_insert top new_free_area areas1 else areas1
                let stack2 := if split then new_free_area.iter :: rest else rest
                let areas3 := list_erase top areas2
                if new_addr < MEMORY_CAPACITY then
                  -- line 106
                  if (s.cells_to_mem_area_map new_addr).isSome then
                    .error (fault.assertion 106)
                  else
                    .ok (to_int new_addr,
                      { mem_areas := areas3
                        invalid_mem_areas := s.invalid_mem_areas
                        last_freed_mem_areas := stack2
                        cells_to_mem_area_map := fun a =>
                          if a = new_addr then some new_busy_area.iter
                          else s.cells_to_mem_area_map a
                        fresh := s.fresh + 2 })
                else .error (fault.undefined 106)
          else .ok (-1, s)
    else .error (fault.assertion 83)

/-- The loop of lines 151-156: while the top of the stack points at an invalid area, pop
it and erase the area from the list of invalid areas.  Returns the stack and the list of
invalid areas the loop leaves. -/
def prune_stack (areas : List list_node) :
    List Nat → List list_node → Except fault (List Nat × List list_node)
  | [], invalid_areas => .ok ([], invalid_areas)
  | top :: rest, invalid_areas =>
    match deref areas invalid_areas top with
    | none => .error (fault.undefined 151)
    | some last_freed_area =>
      if last_freed_area.val.state = mem_state_t.invalid then
        match list_find top invalid_areas with
        | none => .error (fault.undefined 155)
        | some _ => prune_stack areas rest (list_erase top invalid_areas)
      else .ok (top :: rest, invalid_areas)

/-- Lines 129-136: the merge with the free area to the right of `freed_area`. -/
def merge_right (freed_area : Nat) (areas invalid_areas : List list_node) :
    List list_node × List list_node :=
  match list_next freed_area areas with
  | none => (areas, invalid_areas)
  | some next_to_free =>
    if next_to_free.val.state = mem_state_t.free then
      (list_erase next_to_free.iter
          (list_modify freed_area
            (fun m => { m with length := (m.length + next_to_free.val.length) % SIZE_MOD })
            areas),
        invalid_areas ++ [⟨next_to_free.iter, { next_to_free.val with state := mem_state_t.invalid }⟩])
    else (areas, invalid_areas)

/-- Lines 137-147: the merge with the free area to the left of `freed_area`. -/
def merge_left (freed_area : Nat) (areas invalid_areas : List list_node) :
    Except fault (List list_node × List list_node) :=
  if is_begin freed_area areas then .ok (areas, invalid_areas)
  else
    match list_prev freed_area areas with
    | none => .error (fault.undefined 139)
    | some prev_to_free =>
      if prev_to_free.val.state = mem_state_t.free then
        .ok (list_erase prev_to_free.iter
            (list_modify freed_area
              (fun m => { m with
                start := prev_to_free.val.start
                length := (m.length + prev_to_free.val.length) % SIZE_MOD })
              areas),
          invalid_areas ++ [⟨prev_to_free.iter, { prev_to_free.val with state := mem_state_t.invalid }⟩])
      else .ok (areas, invalid_areas)

/-- The function `free_` (lines 116-164). -/
def free_ (s : allocator_state) (a_address : Int) : Except fault (Int × allocator_state) :=
  -- line 118
  if a_address < 0 then .error (fault.assertion 118)
  else if a_address.toNat < MEMORY_CAPACITY then
    match s.cells_to_mem_area_map a_address.toNat with
    | none => .ok (-1, s)
    | some freed_area =>
      match list_find freed_area s.mem_areas with
      | none => .error (fault.undefined 124)
      | some _ =>
        let areas1 :=
          list_modify freed_area (fun m => { m with state := mem_state_t.free }) s.mem_areas
        let merged := merge_right freed_area areas1 s.invalid_mem_areas
        match merge_left freed_area merged.1 merged.2 with
        | .error e => .error e
        | .ok (areas3, invalid3) =>
          match prune_stack areas3 s.last_freed_mem_areas invalid3 with
          | .error e => .error e
          | .ok (stack4, invalid4) =>
            .ok (0,
              { mem_areas := areas3
                invalid_mem_areas := invalid4
                last_freed_mem_areas := freed_area :: stack4
                cells_to_mem_area_map := fun a =>
                  if a = a_address.toNat then none else s.cells_to_mem_area_map a
                fresh := s.fresh })
  else .error (fault.undefined 120)

/-! ## Sequences of calls -/

/-- A call of the public interface. -/
inductive call where
  | allocate (size : Nat)
  | release (address : Int)
  deriving DecidableEq, Repr

/-- One call. -/
def step (s : allocator_state) : call → Except fault (Int × allocator_state)
  | call.allocate size => malloc_ s size
  | call.release address => free_ s address

/-- A sequence of calls, each on the state the one before left; the returned values are
collected in order.  The first call that stops without returning stops the sequence. -/
def run (s : allocator_state) : List call → Except fault (List Int × allocator_state)
  | [] => .ok ([], s)
  | c :: cs =>
    match step s c with
    | .error e => .error e
    | .ok (r, s1) =>
      match run s1 cs with
      | .error e => .error e
      | .ok (rs, s2) => .ok (r :: rs, s2)

/-- The states the program can be in between calls: the initial state and every state a
returning call leaves, whatever the arguments of the calls. -/
inductive Reachable : allocator_state → Prop
  | init : Reachable init
  | malloc_ {s s1 : allocator_state} {a_size : Nat} {r : Int} :
      Reachable s → malloc_ s a_size = .ok (r, s1) → Reachable s1
  | free_ {s s1 : allocator_state} {a_address : Int} {r : Int} :
      Reachable s → free_ s a_address = .ok (r, s1) → Reachable s1

/-- What a test can look at after a run: the returned values, the Ledger, the Graveyard
and the Recency Stack. -/
def observe (r : Except fault (List Int × allocator_state)) :
    Except fault (List Int × List list_node × List list_node × List Nat) :=
  match r with
  | .error e => .error e
  | .ok (rs, s) => .ok (rs, s.mem_areas, s.invalid_mem_areas, s.last_freed_mem_areas)

/-! ## Notions used to state the properties -/

/-- The identities of the nodes of a list. -/
def ids (l : List list_node) : List Nat := l.map (fun n => n.iter)

/-- The areas of `l`, in order, tile the addresses from `lo` to `hi`: the first starts at
`lo`, each next one starts where the one before ends, and the last ends at `hi`. -/
def Partition : Nat → List list_node → Nat → Prop
  | lo, [], hi => lo = hi
  | lo, n :: rest, hi => n.val.start = lo ∧ Partition (lo + n.val.length) rest hi

/-- The sum of the lengths of the areas of a list. -/
def total_length (l : List list_node) : Nat := (l.map (fun n => n.val.length)).sum

/-- No two neighbouring areas of the list are both free. -/
def no_adjacent_free (l : List list_node) : Prop :=
  List.Chain'
    (fun a b : list_node => ¬ (a.val.state = mem_state_t.free ∧ b.val.state = mem_state_t.free)) l

/-- What holds of the state between calls. -/
structure Inv (s : allocator_state) : Prop where
  /-- No two nodes of the two lists have the same identity. -/
  ids_nodup : (ids (s.mem_areas ++ s.invalid_mem_areas)).Nodup
  /-- The identities in use are below `fresh`. -/
  ids_fresh : ∀ n ∈ s.mem_areas ++ s.invalid_mem_areas, n.iter < s.fresh
  /-- The areas tile `[0, MEMORY_CAPACITY)`. -/
  partition : Partition 0 s.mem_areas MEMORY_CAPACITY
  /-- No area of the area list is invalid. -/
  live : ∀ n ∈ s.mem_areas, n.val.state ≠ mem_state_t.invalid
  /-- Every area of the list of invalid areas is invalid. -/
  dead : ∀ n ∈ s.invalid_mem_areas, n.val.state = mem_state_t.invalid
  /-- No two neighbouring areas are both free. -/
  no_adj : no_adjacent_free s.mem_areas
  /-- A filled slot points at a busy area that starts at the slot's number. -/
  index_sound : ∀ a it, s.cells_to_mem_area_map a = some it →
    a < MEMORY_CAPACITY ∧
      ∃ n ∈ s.mem_areas, n.iter = it ∧ n.val.state = mem_state_t.busy ∧ n.val.start = a
  /-- The slot at the start of a busy area points at that area. -/
  index_complete : ∀ n ∈ s.mem_areas, n.val.state = mem_state_t.busy →
    s.cells_to_mem_area_map n.val.start = some n.iter
  /-- No iterator is in the stack twice. -/
  stack_nodup : s.last_freed_mem_areas.Nodup
  /-- Every iterator in the stack points at a free area of the area list or at a node of
  the list of invalid areas. -/
  stack_sound : ∀ it ∈ s.last_freed_mem_areas,
    (∃ n ∈ s.mem_areas, n.iter = it ∧ n.val.state = mem_state_t.free) ∨
      it ∈ ids s.invalid_mem_areas
  /-- Every free area is in the stack. -/
  stack_free : ∀ n ∈ s.mem_areas, n.val.state = mem_state_t.free →
    n.iter ∈ s.last_freed_mem_areas
  /-- Every node of the list of invalid areas is in the stack. -/
  stack_dead : ∀ n ∈ s.invalid_mem_areas, n.iter ∈ s.last_freed_mem_areas

/-- A node after `state = mem_state_t::invalid` has been assigned through an iterator to
it. -/
def invalidated (n : list_node) : list_node :=
  ⟨n.iter, { n.val with state := mem_state_t.invalid }⟩

/-- What the loop that pops the stack relies on: the iterators of the stack are distinct
and point at free areas of the area list or at nodes of the list of invalid areas, and
every node of the list of invalid areas is pointed at. -/
structure StackOK (areas invalid_areas : List list_node) (stack : List Nat) : Prop where
  ids_nodup : (ids (areas ++ invalid_areas)).Nodup
  live : ∀ n ∈ areas, n.val.state ≠ mem_state_t.invalid
  dead : ∀ n ∈ invalid_areas, n.val.state = mem_state_t.invalid
  stack_nodup : stack.Nodup
  stack_sound : ∀ it ∈ stack,
    (∃ n ∈ areas, n.iter = it ∧ n.val.state = mem_state_t.free) ∨ it ∈ ids invalid_areas
  stack_dead : ∀ n ∈ invalid_areas, n.iter ∈ stack

/-- The freed area `B` after it has absorbed the areas `Lr` to its left and `Rr` to its
right. -/
def merged_area (Lr : List list_node) (B : list_node) (Rr : List list_node) : list_node :=
  ⟨B.iter, ⟨B.val.start - total_length Lr,
    B.val.length + total_length Rr + total_length Lr, mem_state_t.free⟩⟩

/-- The sum of the lengths of the free areas of a list. -/
def free_length (l : List list_node) : Nat :=
  total_length (l.filter (fun n => decide (n.val.state = mem_state_t.free)))

/-- The allocations granted and not yet released, as pairs of address and size, after a
call `c` that returned `r`: an `allocate` that returns an address adds a pair, a `release`
that returns 0 removes the pair of its address. -/
def track (live : List (Int × Nat)) (c : call) (r : Int) : List (Int × Nat) :=
  match c with
  | call.allocate size => if r = -1 then live else (r, size) :: live
  | call.release address =>
    if r = 0 then live.filter (fun p => decide (p.1 ≠ address)) else live

/-- The reachable states together with the allocations that are live in them. -/
inductive ReachableLive : allocator_state → List (Int × Nat) → Prop
  | init : ReachableLive init []
  | call {s s1 : allocator_state} {live : List (Int × Nat)} {c : call} {r : Int} :
      ReachableLive s live → step s c = .ok (r, s1) → ReachableLive s1 (track live c r)

/-- Some area of the Ledger is busy, or the top of the stack points at an area of the
Ledger. -/
def busy_or_top_live (s : allocator_state) : Prop :=
  (∃ n ∈ s.mem_areas, n.val.state = mem_state_t.busy) ∨
    ∃ top rest n, s.last_freed_mem_areas = top :: rest ∧ n ∈ s.mem_areas ∧ n.iter = top

/-! ## Runs used as examples -/

/-- The state a run of calls from the initial state ends in (the initial state when the
run stops at a fault). -/
def state_after (cs : List call) : allocator_state :=
  match run init cs with
  | .ok (_, s) => s
  | .error _ => init

/-- Five allocations of 100; 0 and 300 are released, then 100, whose area absorbs the free
area at 0 while the area at 300 is the top of the stack; the two exact-fit allocations that
follow pop the merged area and the area at 300, which uncovers the absorbed, invalid area
at 0 as the top of the stack while the area at 500 is still free. -/
def stale_top_calls : List call :=
  [call.allocate 100, call.allocate 100, call.allocate 100, call.allocate 100,
    call.allocate 100, call.release 0, call.release 300, call.release 100,
    call.allocate 200, call.allocate 100]

/-- Three allocations of 100; 0 is released, then 200, whose area absorbs the free rest
of the space (the bottom entry of the stack); two exact-fit allocations then use up all
free space and leave the absorbed, invalid area as the only entry of the stack. -/
def exhausted_calls : List call :=
  [call.allocate 100, call.allocate 100, call.allocate 100, call.release 0,
    call.release 200, call.allocate 800, call.allocate 100]

/-- Five allocations of 100, then `release(0)` and `release(300)`: two free areas of 100
with busy areas around them, and the free rest of the space. -/
def two_holes_calls : List call :=
  [call.allocate 100, call.allocate 100, call.allocate 100, call.allocate 100,
    call.allocate 100, call.release 0, call.release 300]

/-! ## The list operations on a list split at the node an iterator points at -/
@[simp] theorem ids_nil : ids [] = [] := rfl
@[simp] theorem ids_cons (n : list_node) (l : List list_node) : ids (n :: l) = n.iter :: ids l := rfl
@[simp] theorem ids_append (l1 l2 : List list_node) : ids (l1 ++ l2) = ids l1 ++ ids l2 := by
  simp [ids]

theorem mem_ids_of_mem {n : list_node} {l : List list_node} (h : n ∈ l) : n.iter ∈ ids l :=
  List.mem_map_of_mem _ h

theorem mem_ids_iff {it : Nat} {l : List list_node} : it ∈ ids l ↔ ∃ n ∈ l, n.iter = it := by
  simp [ids]

theorem list_find_append (it : Nat) (pre post : List list_node) (n : list_node)
    (hn : n.iter = it) (hpre : it ∉ ids pre) : list_find it (pre ++ n :: post) = some n := by
  induction pre with
  | nil => simp [list_find, hn]
  | cons p pre ih =>
    simp only [ids_cons, List.mem_cons, not_or] at hpre
    have hp : p.iter ≠ it := fun h => hpre.1 h.symm
    simp [list_find, hp, ih hpre.2]

theorem list_find_none {it : Nat} {l : List list_node} : list_find it l = none ↔ it ∉ ids l := by
  induction l with
  | nil => simp [list_find]
  | cons p l ih =>
    by_cases hp : p.iter = it
    · simp [list_find, hp]
    · have hp2 : ¬ it = p.iter := fun h => hp h.symm
      simp [list_find, hp, hp2, ih]

theorem list_find_some {it : Nat} {l : List list_node} {n : list_node}
    (h : list_find it l = some n) :
    ∃ pre post, l = pre ++ n :: post ∧ n.iter = it ∧ it ∉ ids pre := by
  induction l with
  | nil => simp [list_find] at h
  | cons p l ih =>
    by_cases hp : p.iter = it
    · simp [list_find, hp] at h
      subst h
      exact ⟨[], l, rfl, hp, by simp⟩
    · simp [list_find, hp] at h
      obtain ⟨pre, post, hl, hn, hpre⟩ := ih h
      refine ⟨p :: pre, post, by simp [hl], hn, ?_⟩
      simp only [ids_cons, List.mem_cons, not_or]
      exact ⟨fun h => hp h.symm, hpre⟩

theorem list_insert_append (it : Nat) (x : list_node) (pre post : List list_node) (n : list_node)
    (hn : n.iter = it) (hpre : it ∉ ids pre) :
    list_insert it x (pre ++ n :: post) = pre ++ x :: n :: post := by
  induction pre with
  | nil => simp [list_insert, hn]
  | cons p pre ih =>
    simp only [ids_cons, List.mem_cons, not_or] at hpre
    have hp : p.iter ≠ it := fun h => hpre.1 h.symm
    simp [list_insert, hp, ih hpre.2]

theorem list_erase_append (it : Nat) (pre post : List list_node) (n : list_node)
    (hn : n.iter = it) (hpre : it ∉ ids pre) :
    list_erase it (pre ++ n :: post) = pre ++ post := by
  induction pre with
  | nil => simp [list_erase, hn]
  | cons p pre ih =>
    simp only [ids_cons, List.mem_cons, not_or] at hpre
    have hp : p.iter ≠ it := fun h => hpre.1 h.symm
    simp [list_erase, hp, ih hpre.2]

theorem list_modify_append (it : Nat) (f : mem_area_t → mem_area_t) (pre post : List list_node)
    (n : list_node) (hn : n.iter = it) (hpre : it ∉ ids pre) :
    list_modify it f (pre ++ n :: post) = pre ++ ⟨n.iter, f n.val⟩ :: post := by
  induction pre with
  | nil => simp [list_modify, hn]
  | cons p pre ih =>
    simp only [ids_cons, List.mem_cons, not_or] at hpre
    have hp : p.iter ≠ it := fun h => hpre.1 h.symm
    simp [list_modify, hp, ih hpre.2]

theorem list_next_append (it : Nat) (pre post : List list_node) (n : list_node)
    (hn : n.iter = it) (hpre : it ∉ ids pre) :
    list_next it (pre ++ n :: post) = post.head? := by
  induction pre with
  | nil => simp [list_next, hn]
  | cons p pre ih =>
    simp only [ids_cons, List.mem_cons, not_or] at hpre
    have hp : p.iter ≠ it := fun h => hpre.1 h.symm
    simp [list_next, hp, ih hpre.2]

theorem list_prev_append (it : Nat) (pre post : List list_node) (p n : list_node)
    (hn : n.iter = it) (hpre : it ∉ ids pre) (hp : p.iter ≠ it) :
    list_prev it (pre ++ p :: n :: post) = some p := by
  induction pre with
  | nil => simp [list_prev, hn]
  | cons q pre ih =>
    simp only [ids_cons, List.mem_cons, not_or] at hpre
    have ih2 := ih hpre.2
    cases pre with
    | nil => simp [list_prev, hp, hn]
    | cons q2 pre2 =>
      simp only [ids_cons, List.mem_cons, not_or] at hpre
      have hq2 : q2.iter ≠ it := fun h => hpre.2.1 h.symm
      simp only [List.cons_append] at ih2 ⊢
      simp [list_prev, hq2, ih2]

theorem is_begin_append (it : Nat) (pre post : List list_node) (n : list_node)
    (hn : n.iter = it) (hpre : it ∉ ids pre) :
    is_begin it (pre ++ n :: post) = decide (pre = []) := by
  cases pre with
  | nil => simp [is_begin, hn]
  | cons p pre =>
    simp only [ids_cons, List.mem_cons, not_or] at hpre
    have hp : p.iter ≠ it := fun h => hpre.1 h.symm
    simp [is_begin, hp]

/-! ## The tiling of the address space -/

@[simp] theorem partition_nil (lo hi : Nat) : Partition lo [] hi ↔ lo = hi := Iff.rfl

@[simp] theorem partition_cons (lo hi : Nat) (n : list_node) (l : List list_node) :
    Partition lo (n :: l) hi ↔ n.val.start = lo ∧ Partition (lo + n.val.length) l hi := Iff.rfl

theorem partition_append {lo hi : Nat} {l1 l2 : List list_node} :
    Partition lo (l1 ++ l2) hi ↔ ∃ mid, Partition lo l1 mid ∧ Partition mid l2 hi := by
  induction l1 generalizing lo with
  | nil => simp
  | cons n l1 ih =>
    rw [List.cons_append, partition_cons, ih]
    constructor
    · rintro ⟨h1, mid, h2, h3⟩
      exact ⟨mid, ⟨h1, h2⟩, h3⟩
    · rintro ⟨mid, ⟨h1, h2⟩, h3⟩
      exact ⟨h1, mid, h2, h3⟩

theorem partition_total {lo hi : Nat} {l : List list_node} (h : Partition lo l hi) :
    lo + total_length l = hi := by
  induction l generalizing lo with
  | nil => simpa [Partition, total_length] using h
  | cons n l ih =>
    obtain ⟨_, h2⟩ := h
    have := ih h2
    simp only [total_length, List.map_cons, List.sum_cons] at this ⊢
    omega

theorem partition_le {lo hi : Nat} {l : List list_node} (h : Partition lo l hi) : lo ≤ hi := by
  have := partition_total h
  omega

@[simp] theorem total_length_nil : total_length [] = 0 := rfl

@[simp] theorem total_length_cons (n : list_node) (l : List list_node) :
    total_length (n :: l) = n.val.length + total_length l := by
  simp [total_length]

@[simp] theorem total_length_append (l1 l2 : List list_node) :
    total_length (l1 ++ l2) = total_length l1 + total_length l2 := by
  simp [total_length]

/-- The state after a successful `malloc_`, written out on the area list split at the
area the top of the stack points at. -/
theorem malloc_cases {s s1 : allocator_state} {a_size : Nat} {r : Int}
    (h : malloc_ s a_size = .ok (r, s1)) (hfresh : ∀ m ∈ s.mem_areas, m.iter < s.fresh) :
    (r = -1 ∧ s1 = s) ∨
    ∃ top rest pre F post,
      s.last_freed_mem_areas = top :: rest ∧ s.mem_areas = pre ++ F :: post ∧
      F.iter = top ∧ top ∉ ids pre ∧ a_size ≤ F.val.length ∧
      F.val.state ≠ mem_state_t.invalid ∧ F.val.start < MEMORY_CAPACITY ∧
      s.cells_to_mem_area_map F.val.start = none ∧ r = to_int F.val.start ∧
      s1 =
        { mem_areas :=
            pre ++ (⟨s.fresh, ⟨F.val.start, a_size, mem_state_t.busy⟩⟩ ::
              ((if F.val.length > a_size then
                  [⟨s.fresh + 1, ⟨(F.val.start + a_size) % SIZE_MOD, F.val.length - a_size,
                    mem_state_t.free⟩⟩]
                else []) ++ post))
          invalid_mem_areas := s.invalid_mem_areas
          last_freed_mem_areas :=
            if F.val.length > a_size then (s.fresh + 1) :: rest else rest
          cells_to_mem_area_map := fun a =>
            if a = F.val.start then some s.fresh else s.cells_to_mem_area_map a
          fresh := s.fresh + 2 } := by
  unfold malloc_ at h
  cases hfs : __free_space s.mem_areas with
  | error e => simp [hfs] at h
  | ok space =>
    simp only [hfs] at h
    by_cases hassert : (if s.last_freed_mem_areas.isEmpty then space = 0 else space ≠ 0)
    case neg => simp only [hassert, if_false] at h; exact absurd h (by simp)
    case pos =>
    simp only [hassert, if_true] at h
    cases hstack : s.last_freed_mem_areas with
    | nil =>
      simp only [hstack, Except.ok.injEq, Prod.mk.injEq] at h
      exact Or.inl ⟨h.1.symm, h.2.symm⟩
    | cons top rest =>
      simp only [hstack] at h
      cases hderef : deref s.mem_areas s.invalid_mem_areas top with
      | none => simp [hderef] at h
      | some F =>
        simp only [hderef] at h
        by_cases hlen : F.val.length ≥ a_size
        case neg =>
          simp only [hlen, if_false, Except.ok.injEq, Prod.mk.injEq] at h
          exact Or.inl ⟨h.1.symm, h.2.symm⟩
        case pos =>
        simp only [hlen, if_true] at h
        by_cases hstate : F.val.state = mem_state_t.invalid
        case pos => simp [hstate] at h
        case neg =>
        simp only [hstate, if_false] at h
        cases hfind : list_find top s.mem_areas with
        | none => simp [hfind] at h
        | some F2 =>
          simp only [hfind] at h
          have hF : F = F2 := by
            simp only [deref, hfind] at hderef
            exact (Option.some.inj hderef).symm
          subst hF
          obtain ⟨pre, post, hl, hn, hpre⟩ := list_find_some hfind
          by_cases haddr : F.val.start < MEMORY_CAPACITY
          case neg => simp [haddr] at h
          case pos =>
          simp only [haddr, if_true] at h
          cases hcell : s.cells_to_mem_area_map F.val.start with
          | some x => simp [hcell] at h
          | none =>
            simp only [hcell, Option.isSome_none, Bool.false_eq_true, if_false,
              Except.ok.injEq, Prod.mk.injEq] at h
            refine Or.inr ⟨top, rest, pre, F, post, rfl, hl, hn, hpre, hlen, hstate,
              haddr, hcell, h.1.symm, ?_⟩
            rw [← h.2]
            have hFin : F ∈ s.mem_areas := by rw [hl]; simp
            have hlt : top < s.fresh := hn ▸ hfresh F hFin
            have hne1 : top ≠ s.fresh := by omega
            have hne2 : top ≠ s.fresh + 1 := by omega
            have hpre1 : top ∉ ids (pre ++ [(⟨s.fresh, ⟨F.val.start, a_size, mem_state_t.busy⟩⟩ : list_node)]) := by
              simp [hpre, hne1]
            have e1 : pre ++ (⟨s.fresh, ⟨F.val.start, a_size, mem_state_t.busy⟩⟩ : list_node) :: F :: post
                = (pre ++ [⟨s.fresh, ⟨F.val.start, a_size, mem_state_t.busy⟩⟩]) ++ F :: post := by simp
            by_cases hgt : F.val.length > a_size
            · simp only [hgt, decide_True, reduceIte]
              congr 1
              rw [hl, list_insert_append top _ pre post F hn hpre]
              rw [e1, list_insert_append top _ _ post F hn hpre1]
              have hpre2 : top ∉ ids ((pre ++ [(⟨s.fresh, ⟨F.val.start, a_size, mem_state_t.busy⟩⟩ : list_node)]) ++
                  [(⟨s.fresh + 1, ⟨(F.val.start + a_size) % SIZE_MOD, F.val.length - a_size, mem_state_t.free⟩⟩ : list_node)]) := by
                simp [hpre, hne1, hne2]
              have e2 : ∀ x : list_node, (pre ++ [(⟨s.fresh, ⟨F.val.start, a_size, mem_state_t.busy⟩⟩ : list_node)]) ++ x :: F :: post
                  = ((pre ++ [⟨s.fresh, ⟨F.val.start, a_size, mem_state_t.busy⟩⟩]) ++ [x]) ++ F :: post := by
                intro x; simp
              rw [e2, list_erase_append top _ post F hn hpre2]
              simp
            · simp only [hgt, decide_False, Bool.false_eq_true, reduceIte]
              congr 1
              rw [hl, list_insert_append top _ pre post F hn hpre]
              rw [e1]
              rw [list_erase_append top _ post F hn hpre1]
              simp

/-! ## The invariant -/

theorem init_inv : Inv init := by
  refine ⟨?_, ?_, ?_, ?_, ?_, ?_, ?_, ?_, ?_, ?_, ?_, ?_⟩ <;>
    simp [init, ids, Partition, no_adjacent_free]

/-- The facts about a node of the area list that follow from the identities being
distinct. -/
theorem nodup_split {pre post g : List list_node} {F : list_node}
    (h : (ids ((pre ++ F :: post) ++ g)).Nodup) :
    F.iter ∉ ids pre ∧ F.iter ∉ ids post ∧ F.iter ∉ ids g ∧ (ids (pre ++ post ++ g)).Nodup := by
  simp only [ids_append, ids_cons, List.append_assoc, List.cons_append] at h ⊢
  rw [List.nodup_append] at h
  obtain ⟨h1, h2, h3⟩ := h
  rw [List.nodup_cons] at h2
  refine ⟨fun hm => h3 hm (List.mem_cons_self _ _), fun hm => h2.1 (List.mem_append_left _ hm),
    fun hm => h2.1 (List.mem_append_right _ hm), ?_⟩
  rw [List.nodup_append]
  exact ⟨h1, h2.2, fun x hx hy => h3 hx (List.mem_cons_of_mem _ hy)⟩

/-- In a state that satisfies the invariant, an iterator of the stack that points into
the area list points at a free area. -/
theorem stack_entry_free {s : allocator_state} (hinv : Inv s) {it : Nat}
    (hit : it ∈ s.last_freed_mem_areas) {n : list_node} (hn : n ∈ s.mem_areas)
    (hni : n.iter = it) : n.val.state = mem_state_t.free := by
  obtain ⟨pre, post, hl⟩ := List.append_of_mem hn
  have hnd := hinv.ids_nodup
  rw [hl] at hnd
  obtain ⟨h1, h2, h3, -⟩ := nodup_split hnd
  rcases hinv.stack_sound it hit with ⟨m, hm, hmi, hmf⟩ | hg
  · rw [hl] at hm
    simp only [List.mem_append, List.mem_cons] at hm
    rcases hm with hm | rfl | hm
    · exact absurd (mem_ids_of_mem hm) (by rw [hmi, ← hni]; exact h1)
    · exact hmf
    · exact absurd (mem_ids_of_mem hm) (by rw [hmi, ← hni]; exact h2)
  · exact absurd hg (by rw [← hni]; exact h3)

/-- Every iterator in the stack is below `fresh`. -/
theorem stack_lt_fresh {s : allocator_state} (hinv : Inv s) {it : Nat}
    (hit : it ∈ s.last_freed_mem_areas) : it < s.fresh := by
  rcases hinv.stack_sound it hit with ⟨m, hm, hmi, -⟩ | hg
  · exact hmi ▸ hinv.ids_fresh m (List.mem_append_left _ hm)
  · obtain ⟨m, hm, hmi⟩ := mem_ids_iff.1 hg
    exact hmi ▸ hinv.ids_fresh m (List.mem_append_right _ hm)

theorem malloc_inv {s s1 : allocator_state} {a_size : Nat} {r : Int} (hinv : Inv s)
    (h : malloc_ s a_size = .ok (r, s1)) : Inv s1 := by
  rcases malloc_cases h (fun m hm => hinv.ids_fresh m (List.mem_append_left _ hm)) with
    ⟨-, rfl⟩ | ⟨top, rest, pre, F, post, hstack, hl, hFi, -, hlen, -, haddr, hcell, -, rfl⟩
  · exact hinv
  have hnd := hinv.ids_nodup
  rw [hl] at hnd
  obtain ⟨hFpre, hFpost, hFg, hnd2⟩ := nodup_split hnd
  have htop : top ∈ s.last_freed_mem_areas := by rw [hstack]; simp
  have hFin : F ∈ s.mem_areas := by rw [hl]; simp
  have hFfree : F.val.state = mem_state_t.free := stack_entry_free hinv htop hFin hFi
  have hpart := hinv.partition
  rw [hl, partition_append] at hpart
  obtain ⟨mid, hp1, hp2⟩ := hpart
  rw [partition_cons] at hp2
  obtain ⟨hFs, hp3⟩ := hp2
  have hle := partition_le hp3
  have hwrap : (F.val.start + a_size) % SIZE_MOD = F.val.start + a_size := by
    apply Nat.mod_eq_of_lt
    have : MEMORY_CAPACITY = 1000 := rfl
    have : SIZE_MOD = 18446744073709551616 := rfl
    omega
  have hfr : ∀ m ∈ pre ++ post ++ s.invalid_mem_areas, m.iter < s.fresh := by
    intro m hm
    apply hinv.ids_fresh m
    rw [hl]
    simp only [List.mem_append, List.mem_cons] at hm ⊢
    tauto
  have hsnd := hinv.stack_nodup
  rw [hstack, List.nodup_cons] at hsnd
  have hadj := hinv.no_adj
  rw [hl, no_adjacent_free, List.chain'_append, List.chain'_cons'] at hadj
  obtain ⟨hadj1, ⟨hadj2, hadj3⟩, hadj4⟩ := hadj
  have hfr2 : ∀ i ∈ ids pre ++ (ids post ++ ids s.invalid_mem_areas), i < s.fresh := by
    intro i hi
    rw [← ids_append, ← ids_append, ← List.append_assoc] at hi
    obtain ⟨m, hm, rfl⟩ := mem_ids_iff.1 hi
    exact hfr m hm
  refine ⟨?_, ?_, ?_, ?_, ?_, ?_, ?_, ?_, ?_, ?_, ?_, ?_⟩
  · -- ids_nodup
    simp only [ids_append, ids_cons, List.append_assoc, List.cons_append] at hnd2 ⊢
    by_cases hgt : F.val.length > a_size
    · simp only [hgt, reduceIte, ids_cons, ids_nil, List.cons_append, List.nil_append]
      rw [List.nodup_middle, List.nodup_cons]
      constructor
      · intro hm
        simp only [List.mem_append, List.mem_cons] at hm
        rcases hm with hm | hm | hm
        · exact absurd (hfr2 _ (List.mem_append_left _ hm)) (by omega)
        · omega
        · exact absurd (hfr2 _ (List.mem_append_right _ (List.mem_append.2 hm))) (by omega)
      · rw [List.nodup_middle, List.nodup_cons]
        exact ⟨fun hm => absurd (hfr2 _ hm) (by omega), hnd2⟩
    · simp only [hgt, reduceIte, ids_nil, List.nil_append]
      rw [List.nodup_middle, List.nodup_cons]
      exact ⟨fun hm => absurd (hfr2 _ hm) (by omega), hnd2⟩
  · -- ids_fresh
    intro m hm
    show m.iter < s.fresh + 2
    simp only [List.mem_append, List.mem_cons] at hm
    rcases hm with (hm | rfl | hm | hm) | hm
    · have := hfr m (by simp [hm]); omega
    · show s.fresh < s.fresh + 2; omega
    · split at hm
      · simp only [List.mem_singleton] at hm
        subst hm
        show s.fresh + 1 < s.fresh + 2; omega
      · simp at hm
    · have := hfr m (by simp [hm]); omega
    · have := hfr m (by simp [hm]); omega
  · -- partition
    show Partition 0 (pre ++ _) MEMORY_CAPACITY
    rw [partition_append]
    refine ⟨mid, hp1, ?_⟩
    rw [partition_cons]
    refine ⟨hFs, ?_⟩
    by_cases hgt : F.val.length > a_size
    · simp only [hgt, reduceIte, List.cons_append, List.nil_append, partition_cons, hwrap]
      refine ⟨by omega, ?_⟩
      have e : mid + a_size + (F.val.length - a_size) = mid + F.val.length := by omega
      rw [e]; exact hp3
    · simp only [hgt, reduceIte, List.nil_append]
      have e : a_size = F.val.length := by omega
      rw [e]; exact hp3
  · -- live
    intro m hm
    simp only [List.mem_append, List.mem_cons] at hm
    rcases hm with hm | rfl | hm | hm
    · exact hinv.live m (by rw [hl]; simp [hm])
    · simp
    · split at hm
      · simp only [List.mem_singleton] at hm
        subst hm; simp
      · simp at hm
    · exact hinv.live m (by rw [hl]; simp [hm])
  · exact hinv.dead
  · -- no_adj
    show no_adjacent_free (pre ++ _)
    rw [no_adjacent_free, List.chain'_append, List.chain'_cons']
    refine ⟨hadj1, ⟨?_, ?_⟩, ?_⟩
    · intro y _
      simp
    · by_cases hgt : F.val.length > a_size
      · simp only [hgt, reduceIte, List.cons_append, List.nil_append]
        rw [List.chain'_cons']
        refine ⟨fun y hy => ?_, hadj3⟩
        have := hadj2 y hy
        simp only [hFfree, true_and] at this
        simp [this]
      · simp only [hgt, reduceIte, List.nil_append]
        exact hadj3
    · intro x _ y hy
      simp only [List.head?_cons, Option.mem_def, Option.some.injEq] at hy
      subst hy
      simp
  · -- index_sound
    intro a it ha
    simp only at ha
    by_cases hea : a = F.val.start
    · simp only [hea, reduceIte, Option.some.injEq] at ha
      exact ⟨hea ▸ haddr,
        ⟨s.fresh, ⟨F.val.start, a_size, mem_state_t.busy⟩⟩, by simp, ha, rfl, hea.symm⟩
    · simp only [hea, reduceIte] at ha
      obtain ⟨hacap, n, hn, hni, hnb, hns⟩ := hinv.index_sound a it ha
      refine ⟨hacap, n, ?_, hni, hnb, hns⟩
      rw [hl] at hn
      simp only [List.mem_append, List.mem_cons] at hn ⊢
      rcases hn with hn | rfl | hn
      · exact Or.inl hn
      · rw [hFfree] at hnb; cases hnb
      · exact Or.inr (Or.inr (Or.inr hn))
  · -- index_complete
    intro n hn hnb
    simp only [List.mem_append, List.mem_cons] at hn
    have hold : n ∈ s.mem_areas → (if n.val.start = F.val.start then some s.fresh
        else s.cells_to_mem_area_map n.val.start) = some n.iter := by
      intro hn2
      have h1 := hinv.index_complete n hn2 hnb
      by_cases hes : n.val.start = F.val.start
      · rw [hes, hcell] at h1; cases h1
      · simp only [hes, reduceIte]; exact h1
    rcases hn with hn | rfl | hn | hn
    · exact hold (by rw [hl]; simp [hn])
    · simp
    · split at hn
      · simp only [List.mem_singleton] at hn
        subst hn; cases hnb
      · simp at hn
    · exact hold (by rw [hl]; simp [hn])
  · -- stack_nodup
    show (if F.val.length > a_size then (s.fresh + 1) :: rest else rest).Nodup
    split
    · rw [List.nodup_cons]
      refine ⟨fun hm => ?_, hsnd.2⟩
      have := @stack_lt_fresh s hinv (s.fresh + 1) (by rw [hstack]; simp [hm])
      omega
    · exact hsnd.2
  · -- stack_sound
    intro it hit
    have hold : it ∈ rest → (∃ n ∈ pre ++ (⟨s.fresh, ⟨F.val.start, a_size, mem_state_t.busy⟩⟩ : list_node) ::
        ((if F.val.length > a_size then
            [(⟨s.fresh + 1, ⟨(F.val.start + a_size) % SIZE_MOD, F.val.length - a_size,
              mem_state_t.free⟩⟩ : list_node)]
          else []) ++ post), n.iter = it ∧ n.val.state = mem_state_t.free) ∨
        it ∈ ids s.invalid_mem_areas := by
      intro hr
      rcases hinv.stack_sound it (by rw [hstack]; simp [hr]) with ⟨n, hn, hni, hnf⟩ | hg
      · left
        refine ⟨n, ?_, hni, hnf⟩
        rw [hl] at hn
        simp only [List.mem_append, List.mem_cons] at hn ⊢
        rcases hn with hn | rfl | hn
        · exact Or.inl hn
        · rw [hFi] at hni; subst hni; exact absurd hr hsnd.1
        · exact Or.inr (Or.inr (Or.inr hn))
      · exact Or.inr hg
    by_cases hgt : F.val.length > a_size
    · simp only [hgt, reduceIte, List.mem_cons] at hit
      rcases hit with rfl | hit
      · left
        exact ⟨⟨s.fresh + 1, ⟨(F.val.start + a_size) % SIZE_MOD, F.val.length - a_size, mem_state_t.free⟩⟩, by simp [hgt], rfl, rfl⟩
      · exact hold hit
    · simp only [hgt, reduceIte] at hit
      exact hold hit
  · -- stack_free
    intro n hn hnf
    simp only [List.mem_append, List.mem_cons] at hn
    have hold : n ∈ pre ∨ n ∈ post →
        n.iter ∈ (if F.val.length > a_size then (s.fresh + 1) :: rest else rest) := by
      intro hn2
      have h1 := hinv.stack_free n (by rw [hl]; simp only [List.mem_append, List.mem_cons]; tauto) hnf
      rw [hstack, List.mem_cons] at h1
      have hne : n.iter ≠ top := by
        rintro rfl
        rcases hn2 with h2 | h2
        · exact hFpre (hFi ▸ mem_ids_of_mem h2)
        · exact hFpost (hFi ▸ mem_ids_of_mem h2)
      rcases h1 with h1 | h1
      · exact absurd h1 hne
      · split
        · exact List.mem_cons_of_mem _ h1
        · exact h1
    rcases hn with hn | rfl | hn | hn
    · exact hold (Or.inl hn)
    · cases hnf
    · split at hn
      · rename_i hgt
        simp only [List.mem_singleton] at hn
        subst hn
        simp [hgt]
      · simp at hn
    · exact hold (Or.inr hn)
  · -- stack_dead
    intro n hn
    have h1 := hinv.stack_dead n hn
    rw [hstack, List.mem_cons] at h1
    rcases h1 with h1 | h1
    · exact absurd (mem_ids_of_mem hn) (by rw [h1, ← hFi]; exact hFg)
    · show n.iter ∈ (if F.val.length > a_size then (s.fresh + 1) :: rest else rest)
      split
      · exact List.mem_cons_of_mem _ h1
      · exact h1

/-! ## The two merges of `free_` -/

theorem merge_right_end (it : Nat) (pre g : List list_node) (B : list_node)
    (hB : B.iter = it) (hpre : it ∉ ids pre) :
    merge_right it (pre ++ [B]) g = (pre ++ [B], g) := by
  simp [merge_right, list_next_append it pre [] B hB hpre]

theorem merge_right_busy (it : Nat) (pre post g : List list_node) (B nx : list_node)
    (hB : B.iter = it) (hpre : it ∉ ids pre) (hnx : nx.val.state ≠ mem_state_t.free) :
    merge_right it (pre ++ B :: nx :: post) g = (pre ++ B :: nx :: post, g) := by
  simp [merge_right, list_next_append it pre (nx :: post) B hB hpre, hnx]

theorem merge_right_free (it : Nat) (pre post g : List list_node) (B nx : list_node)
    (hB : B.iter = it) (hpre : it ∉ ids pre) (hnx : nx.val.state = mem_state_t.free)
    (hnx1 : nx.iter ∉ ids pre) (hnx2 : nx.iter ≠ it) :
    merge_right it (pre ++ B :: nx :: post) g =
      (pre ++ ⟨it, { B.val with length := (B.val.length + nx.val.length) % SIZE_MOD }⟩ :: post,
        g ++ [invalidated nx]) := by
  have h1 : nx.iter ∉ ids (pre ++
      [(⟨B.iter, { B.val with length := (B.val.length + nx.val.length) % SIZE_MOD }⟩ : list_node)]) := by
    simp [hnx1, hB, hnx2]
  have e : ∀ x : list_node, pre ++ x :: nx :: post = (pre ++ [x]) ++ nx :: post := by
    intro x; simp
  simp only [merge_right, list_next_append it pre (nx :: post) B hB hpre, List.head?_cons, hnx,
    reduceIte, list_modify_append it _ pre (nx :: post) B hB hpre]
  rw [e, list_erase_append nx.iter _ post nx rfl h1]
  simp [invalidated, hB]

theorem merge_left_begin (it : Nat) (post g : List list_node) (B : list_node)
    (hB : B.iter = it) :
    merge_left it (B :: post) g = .ok (B :: post, g) := by
  simp [merge_left, is_begin, hB]

theorem merge_left_busy (it : Nat) (pre post g : List list_node) (B pv : list_node)
    (hB : B.iter = it) (hpre : it ∉ ids pre) (hpv2 : pv.iter ≠ it)
    (hpv : pv.val.state ≠ mem_state_t.free) :
    merge_left it (pre ++ pv :: B :: post) g = .ok (pre ++ pv :: B :: post, g) := by
  have h1 : it ∉ ids (pre ++ [pv]) := by
    simp only [ids_append, ids_cons, ids_nil, List.mem_append, List.mem_singleton, not_or]
    exact ⟨hpre, fun h => hpv2 h.symm⟩
  have e : pre ++ pv :: B :: post = (pre ++ [pv]) ++ B :: post := by simp
  have hb : is_begin it (pre ++ pv :: B :: post) = false := by
    rw [e, is_begin_append it _ post B hB h1]; simp
  simp [merge_left, hb, list_prev_append it pre post pv B hB hpre hpv2, hpv]

theorem merge_left_free (it : Nat) (pre post g : List list_node) (B pv : list_node)
    (hB : B.iter = it) (hpre : it ∉ ids pre) (hpv2 : pv.iter ≠ it)
    (hpv : pv.val.state = mem_state_t.free) (hpv1 : pv.iter ∉ ids pre) :
    merge_left it (pre ++ pv :: B :: post) g =
      .ok (pre ++ ⟨it, { B.val with
              start := pv.val.start
              length := (B.val.length + pv.val.length) % SIZE_MOD }⟩ :: post,
        g ++ [invalidated pv]) := by
  have h1 : it ∉ ids (pre ++ [pv]) := by
    simp only [ids_append, ids_cons, ids_nil, List.mem_append, List.mem_singleton, not_or]
    exact ⟨hpre, fun h => hpv2 h.symm⟩
  have e : pre ++ pv :: B :: post = (pre ++ [pv]) ++ B :: post := by simp
  have hb : is_begin it (pre ++ pv :: B :: post) = false := by
    rw [e, is_begin_append it _ post B hB h1]; simp
  simp only [merge_left, hb, Bool.false_eq_true, reduceIte,
    list_prev_append it pre post pv B hB hpre hpv2, hpv]
  rw [e, list_modify_append it _ _ post B hB h1]
  simp only [List.append_assoc, List.singleton_append]
  rw [list_erase_append pv.iter pre _ pv rfl hpv1]
  simp [invalidated, hB]

/-! ## The loop that pops stale iterators -/

theorem nodup_split_right {l pre post : List list_node} {n : list_node}
    (h : (ids (l ++ (pre ++ n :: post))).Nodup) :
    n.iter ∉ ids l ∧ n.iter ∉ ids pre ∧ n.iter ∉ ids post ∧ (ids (l ++ (pre ++ post))).Nodup := by
  have e : l ++ (pre ++ n :: post) = (l ++ pre) ++ n :: post := by simp
  rw [e] at h
  rw [← List.append_nil ((l ++ pre) ++ n :: post)] at h
  obtain ⟨h1, h2, -, h4⟩ := nodup_split h
  simp only [ids_append, List.mem_append, not_or, List.append_nil, ids_nil] at h1 h4 ⊢
  simp only [List.append_assoc] at h4
  exact ⟨h1.1, h1.2, h2, h4⟩

/-- The loop of lines 151-156 ends without a fault, and leaves a stack and a list of
invalid areas that still fit each other. -/
theorem prune_stack_ok (areas : List list_node) :
    ∀ (stack : List Nat) (g : List list_node), StackOK areas g stack →
      ∃ stack1 g1, prune_stack areas stack g = .ok (stack1, g1) ∧ StackOK areas g1 stack1 ∧
        stack1 <:+ stack ∧ g1.Sublist g ∧
        (∀ n ∈ areas, n.iter ∈ stack → n.iter ∈ stack1) ∧
        (∀ it, stack1.head? = some it →
          ∃ n ∈ areas, n.iter = it ∧ n.val.state = mem_state_t.free) := by
  intro stack
  induction stack with
  | nil =>
    intro g hok
    exact ⟨[], g, rfl, hok, List.suffix_refl _, List.Sublist.refl _, fun _ _ h => h,
      fun it h => by simp at h⟩
  | cons top rest ih =>
    intro g hok
    rcases hok.stack_sound top (List.mem_cons_self _ _) with ⟨n, hn, hni, hnf⟩ | hg
    · -- the top points at a free area: the loop stops at once
      have hfind : ∃ m, list_find top areas = some m := by
        cases hf : list_find top areas with
        | some m => exact ⟨m, rfl⟩
        | none => exact absurd (hni ▸ mem_ids_of_mem hn) (list_find_none.1 hf)
      obtain ⟨m, hm⟩ := hfind
      obtain ⟨pre, post, hl, -, -⟩ := list_find_some hm
      have hmlive : m.val.state ≠ mem_state_t.invalid := hok.live m (by rw [hl]; simp)
      refine ⟨top :: rest, g, ?_, hok, List.suffix_refl _, List.Sublist.refl _, fun _ _ h => h,
        ?_⟩
      · simp [prune_stack, deref, hm, hmlive]
      · intro it hit
        simp only [List.head?_cons, Option.some.injEq] at hit
        subst hit
        exact ⟨n, hn, hni, hnf⟩
    · -- the top points at an invalid area: it is popped and the area erased
      obtain ⟨m, hmg, hmi⟩ := mem_ids_iff.1 hg
      obtain ⟨pre, post, hgl⟩ := List.append_of_mem hmg
      have hnd := hok.ids_nodup
      rw [hgl] at hnd
      obtain ⟨h1, h2, h3, h4⟩ := nodup_split_right hnd
      rw [hmi] at h1 h2 h3
      have hfa : list_find top areas = none := list_find_none.2 h1
      have hfg : list_find top g = some m := by
        rw [hgl]; exact list_find_append top pre post m hmi h2
      have hminv : m.val.state = mem_state_t.invalid := hok.dead m hmg
      have hsn := hok.stack_nodup
      rw [List.nodup_cons] at hsn
      have hok2 : StackOK areas (pre ++ post) rest := by
        refine ⟨h4, hok.live, ?_, hsn.2, ?_, ?_⟩
        · intro x hx
          apply hok.dead x
          rw [hgl]
          simp only [List.mem_append, List.mem_cons] at hx ⊢
          tauto
        · intro it hit
          rcases hok.stack_sound it (List.mem_cons_of_mem _ hit) with hA | hB
          · exact Or.inl hA
          · right
            rw [hgl] at hB
            simp only [ids_append, ids_cons, List.mem_append, List.mem_cons] at hB ⊢
            rcases hB with hB | hB | hB
            · exact Or.inl hB
            · rw [hmi] at hB; subst hB; exact absurd hit hsn.1
            · exact Or.inr hB
        · intro x hx
          have hx2 : x ∈ g := by
            rw [hgl]
            simp only [List.mem_append, List.mem_cons] at hx ⊢
            tauto
          have := hok.stack_dead x hx2
          rw [List.mem_cons] at this
          rcases this with h | h
          · exfalso
            simp only [List.mem_append] at hx
            rcases hx with hx | hx
            · exact h2 (h ▸ mem_ids_of_mem hx)
            · exact h3 (h ▸ mem_ids_of_mem hx)
          · exact h
      obtain ⟨stack1, g1, hp, hok1, hsuf, hsub, hkeep, hhead⟩ := ih (pre ++ post) hok2
      refine ⟨stack1, g1, ?_, hok1, ?_, ?_, ?_, hhead⟩
      · have he : list_erase top g = pre ++ post := by
          rw [hgl]; exact list_erase_append top pre post m hmi h2
        simp [prune_stack, deref, hfa, hfg, hminv, he, hp]
      · exact hsuf.trans (List.suffix_cons _ _)
      · rw [hgl]
        exact hsub.trans (List.Sublist.append_left (List.sublist_cons_self _ _) _)
      · intro x hx hxs
        rw [List.mem_cons] at hxs
        rcases hxs with h | h
        · exact absurd (mem_ids_of_mem hx) (h ▸ h1)
        · exact hkeep x hx h

/-- Lines 129-136 on the area list split at the freed area: the area to the right is
absorbed when it is free. -/
theorem merge_right_spec (it : Nat) (pre post g : List list_node) (B : list_node)
    (hB : B.iter = it) (hpre : it ∉ ids pre)
    (hnd : ∀ x ∈ post, x.iter ∉ ids pre ∧ x.iter ≠ it)
    (hbound : B.val.length + total_length post < SIZE_MOD) :
    ∃ Rr postR, post = Rr ++ postR ∧
      ((Rr = [] ∧ ∀ y ∈ postR.head?, y.val.state ≠ mem_state_t.free) ∨
        ∃ nx, Rr = [nx] ∧ nx.val.state = mem_state_t.free) ∧
      merge_right it (pre ++ B :: post) g =
        (pre ++ ⟨it, { B.val with length := B.val.length + total_length Rr }⟩ :: postR,
          g ++ Rr.map invalidated) := by
  have hself : (⟨it, { B.val with length := B.val.length + total_length [] }⟩ : list_node) = B := by
    cases B; simp_all
  cases post with
  | nil =>
    refine ⟨[], [], rfl, Or.inl ⟨rfl, by simp⟩, ?_⟩
    rw [hself]
    simpa using merge_right_end it pre g B hB hpre
  | cons nx post1 =>
    by_cases hnx : nx.val.state = mem_state_t.free
    · refine ⟨[nx], post1, rfl, Or.inr ⟨nx, rfl, hnx⟩, ?_⟩
      have h := hnd nx (List.mem_cons_self _ _)
      rw [merge_right_free it pre post1 g B nx hB hpre hnx h.1 h.2]
      have hlt : B.val.length + nx.val.length < SIZE_MOD := by
        simp only [total_length_cons] at hbound
        omega
      simp [Nat.mod_eq_of_lt hlt]
    · refine ⟨[], nx :: post1, rfl, Or.inl ⟨rfl, by simpa using hnx⟩, ?_⟩
      rw [hself]
      simpa using merge_right_busy it pre post1 g B nx hB hpre hnx

/-- Lines 137-147 on the area list split at the freed area: the area to the left is
absorbed when it is free. -/
theorem merge_left_spec (it : Nat) (pre post g : List list_node) (B : list_node) (lo : Nat)
    (hB : B.iter = it) (hpre : it ∉ ids pre) (hnd : (ids pre).Nodup)
    (hbound : total_length pre + B.val.length < SIZE_MOD)
    (hpart : Partition lo pre B.val.start) :
    ∃ preL Lr, pre = preL ++ Lr ∧
      ((Lr = [] ∧ ∀ x ∈ preL.getLast?, x.val.state ≠ mem_state_t.free) ∨
        ∃ pv, Lr = [pv] ∧ pv.val.state = mem_state_t.free) ∧
      merge_left it (pre ++ B :: post) g =
        .ok (preL ++ ⟨it, { B.val with
                start := B.val.start - total_length Lr
                length := B.val.length + total_length Lr }⟩ :: post,
          g ++ Lr.map invalidated) := by
  have hself : (⟨it, { B.val with
      start := B.val.start - total_length []
      length := B.val.length + total_length [] }⟩ : list_node) = B := by
    cases B; simp_all
  rcases List.eq_nil_or_concat pre with rfl | ⟨pre1, pv, hc⟩
  · refine ⟨[], [], rfl, Or.inl ⟨rfl, by simp⟩, ?_⟩
    rw [hself]
    simpa using merge_left_begin it post g B hB
  · rw [List.concat_eq_append] at hc
    subst hc
    have hpv2 : pv.iter ≠ it := by
      intro h
      apply hpre
      simp [h]
    have hpre1 : it ∉ ids pre1 := by
      intro h
      apply hpre
      simp [h]
    have e : pre1 ++ [pv] ++ B :: post = pre1 ++ pv :: B :: post := by simp
    by_cases hpv : pv.val.state = mem_state_t.free
    · refine ⟨pre1, [pv], rfl, Or.inr ⟨pv, rfl, hpv⟩, ?_⟩
      have hpv1 : pv.iter ∉ ids pre1 := by
        simp only [ids_append, ids_cons, ids_nil] at hnd
        rw [List.nodup_append] at hnd
        intro h
        exact hnd.2.2 h (List.mem_singleton_self _)
      rw [e, merge_left_free it pre1 post g B pv hB hpre1 hpv2 hpv hpv1]
      have hlt : B.val.length + pv.val.length < SIZE_MOD := by
        simp only [total_length_append, total_length_cons, total_length_nil] at hbound
        omega
      rw [partition_append] at hpart
      obtain ⟨mid, -, hp2⟩ := hpart
      simp only [partition_cons, partition_nil] at hp2
      have hs : pv.val.start = B.val.start - pv.val.length := by omega
      simp [Nat.mod_eq_of_lt hlt, hs]
    · refine ⟨pre1 ++ [pv], [], by simp, Or.inl ⟨rfl, by simpa using hpv⟩, ?_⟩
      rw [hself, e]
      simpa using merge_left_busy it pre1 post g B pv hB hpre1 hpv2 hpv

/-! ## A successful `free_` -/

/-- Lines 124-147 on the area list split at the freed area. -/
theorem free_merge {s : allocator_state} (hinv : Inv s) {pre post : List list_node}
    {B : list_node} (hl : s.mem_areas = pre ++ B :: post) :
    ∃ preL Lr Rr postR, pre = preL ++ Lr ∧ post = Rr ++ postR ∧
      ((Lr = [] ∧ ∀ x ∈ preL.getLast?, x.val.state ≠ mem_state_t.free) ∨
        ∃ pv, Lr = [pv] ∧ pv.val.state = mem_state_t.free) ∧
      ((Rr = [] ∧ ∀ y ∈ postR.head?, y.val.state ≠ mem_state_t.free) ∨
        ∃ nx, Rr = [nx] ∧ nx.val.state = mem_state_t.free) ∧
      merge_left B.iter
          (merge_right B.iter
            (list_modify B.iter (fun m => { m with state := mem_state_t.free }) s.mem_areas)
            s.invalid_mem_areas).1
          (merge_right B.iter
            (list_modify B.iter (fun m => { m with state := mem_state_t.free }) s.mem_areas)
            s.invalid_mem_areas).2 =
        .ok (preL ++ merged_area Lr B Rr :: postR,
          s.invalid_mem_areas ++ Rr.map invalidated ++ Lr.map invalidated) := by
  have hnd := hinv.ids_nodup
  rw [hl] at hnd
  obtain ⟨hBpre, hBpost, -, hnd2⟩ := nodup_split hnd
  have hpart := hinv.partition
  rw [hl] at hpart
  have htot := partition_total hpart
  simp only [total_length_append, total_length_cons] at htot
  rw [partition_append] at hpart
  obtain ⟨mid, hp1, hp2⟩ := hpart
  rw [partition_cons] at hp2
  have hcap : MEMORY_CAPACITY = 1000 := rfl
  have hmod : SIZE_MOD = 18446744073709551616 := rfl
  simp only [ids_append, List.append_assoc] at hnd2
  rw [List.nodup_append] at hnd2
  obtain ⟨hndpre, hnd3, hdisj⟩ := hnd2
  rw [hl, list_modify_append B.iter _ pre post B rfl hBpre]
  obtain ⟨Rr, postR, hpost, hR, hmr⟩ := merge_right_spec B.iter pre post s.invalid_mem_areas
    ⟨B.iter, { B.val with state := mem_state_t.free }⟩ rfl hBpre
    (fun x hx => ⟨fun h => hdisj h (List.mem_append_left _ (mem_ids_of_mem hx)),
      fun h => hBpost (h ▸ mem_ids_of_mem hx)⟩)
    (by simp only; omega)
  rw [hmr]
  obtain ⟨preL, Lr, hpre, hL, hml⟩ := merge_left_spec B.iter pre postR
    (s.invalid_mem_areas ++ Rr.map invalidated)
    ⟨B.iter, { B.val with state := mem_state_t.free, length := B.val.length + total_length Rr }⟩
    0 rfl hBpre hndpre
    (by
      have : total_length Rr ≤ total_length post := by rw [hpost]; simp
      simp only; omega)
    (by simpa [hp2.1] using hp1)
  refine ⟨preL, Lr, Rr, postR, hpre, hpost, hL, hR, ?_⟩
  simp only at hml ⊢
  rw [hml]
  simp [merged_area]

theorem partition_skip {lo hi : Nat} {l1 l2 : List list_node}
    (h : Partition lo (l1 ++ l2) hi) : Partition (lo + total_length l1) l2 hi := by
  rw [partition_append] at h
  obtain ⟨mid, h1, h2⟩ := h
  rw [partition_total h1]
  exact h2

@[simp] theorem ids_map_invalidated (l : List list_node) : ids (l.map invalidated) = ids l := by
  simp [ids, invalidated, Function.comp_def]

/-- The area list and the list of invalid areas as the two merges leave them fit the
stack, apart from the freed area not being in the stack yet. -/
theorem free_stack_ok {s : allocator_state} (hinv : Inv s)
    {preL Lr Rr postR : List list_node} {B : list_node}
    (hl : s.mem_areas = (preL ++ Lr) ++ B :: (Rr ++ postR))
    (hBb : B.val.state = mem_state_t.busy)
    (hLf : ∀ x ∈ Lr, x.val.state = mem_state_t.free)
    (hRf : ∀ x ∈ Rr, x.val.state = mem_state_t.free) :
    StackOK (preL ++ merged_area Lr B Rr :: postR)
      (s.invalid_mem_areas ++ Rr.map invalidated ++ Lr.map invalidated)
      s.last_freed_mem_areas := by
  refine ⟨?_, ?_, ?_, hinv.stack_nodup, ?_, ?_⟩
  · have hnd := hinv.ids_nodup
    rw [hl] at hnd
    refine (List.Perm.nodup_iff ?_).1 hnd
    rw [List.perm_iff_count]
    intro a
    simp only [ids_append, ids_cons, ids_map_invalidated, List.count_append, List.count_cons,
      merged_area]
    omega
  · intro n hn
    simp only [List.mem_append, List.mem_cons] at hn
    rcases hn with hn | rfl | hn
    · exact hinv.live n (by rw [hl]; simp [hn])
    · simp [merged_area]
    · exact hinv.live n (by rw [hl]; simp [hn])
  · intro n hn
    simp only [List.mem_append, List.mem_map] at hn
    rcases hn with (hn | ⟨x, -, rfl⟩) | ⟨x, -, rfl⟩
    · exact hinv.dead n hn
    · rfl
    · rfl
  · intro it hit
    rcases hinv.stack_sound it hit with ⟨n, hn, hni, hnf⟩ | hg
    · rw [hl] at hn
      simp only [List.mem_append, List.mem_cons] at hn
      rcases hn with (hn | hn) | rfl | hn | hn
      · exact Or.inl ⟨n, by simp [hn], hni, hnf⟩
      · right
        simp only [ids_append, ids_map_invalidated, List.mem_append]
        exact Or.inr (hni ▸ mem_ids_of_mem hn)
      · rw [hBb] at hnf; cases hnf
      · right
        simp only [ids_append, ids_map_invalidated, List.mem_append]
        exact Or.inl (Or.inr (hni ▸ mem_ids_of_mem hn))
      · exact Or.inl ⟨n, by simp [hn], hni, hnf⟩
    · right
      simp only [ids_append, ids_map_invalidated, List.mem_append]
      exact Or.inl (Or.inl hg)
  · intro n hn
    simp only [List.mem_append, List.mem_map] at hn
    rcases hn with (hn | ⟨x, hx, rfl⟩) | ⟨x, hx, rfl⟩
    · exact hinv.stack_dead n hn
    · exact hinv.stack_free x (by rw [hl]; simp [hx]) (hRf x hx)
    · exact hinv.stack_free x (by rw [hl]; simp [hx]) (hLf x hx)

/-- The state a successful `free_` leaves satisfies the invariant. -/
theorem free_result_inv {s : allocator_state} (hinv : Inv s)
    {preL Lr Rr postR : List list_node} {B : list_node}
    (hl : s.mem_areas = (preL ++ Lr) ++ B :: (Rr ++ postR))
    (hBb : B.val.state = mem_state_t.busy)
    (hL : (Lr = [] ∧ ∀ x ∈ preL.getLast?, x.val.state ≠ mem_state_t.free) ∨
      ∃ pv, Lr = [pv] ∧ pv.val.state = mem_state_t.free)
    (hR : (Rr = [] ∧ ∀ y ∈ postR.head?, y.val.state ≠ mem_state_t.free) ∨
      ∃ nx, Rr = [nx] ∧ nx.val.state = mem_state_t.free)
    {stack1 : List Nat} {g1 : List list_node}
    (hok1 : StackOK (preL ++ merged_area Lr B Rr :: postR) g1 stack1)
    (hsuf : stack1 <:+ s.last_freed_mem_areas)
    (hsub : g1.Sublist (s.invalid_mem_areas ++ Rr.map invalidated ++ Lr.map invalidated))
    (hkeep : ∀ n ∈ preL ++ merged_area Lr B Rr :: postR,
      n.iter ∈ s.last_freed_mem_areas → n.iter ∈ stack1) :
    Inv
      { mem_areas := preL ++ merged_area Lr B Rr :: postR
        invalid_mem_areas := g1
        last_freed_mem_areas := B.iter :: stack1
        cells_to_mem_area_map := fun a =>
          if a = B.val.start then none else s.cells_to_mem_area_map a
        fresh := s.fresh } := by
  have hLf : ∀ x ∈ Lr, x.val.state = mem_state_t.free := by
    rcases hL with ⟨rfl, -⟩ | ⟨pv, rfl, hpv⟩
    · simp
    · simpa using hpv
  have hRf : ∀ x ∈ Rr, x.val.state = mem_state_t.free := by
    rcases hR with ⟨rfl, -⟩ | ⟨nx, rfl, hnx⟩
    · simp
    · simpa using hnx
  have hBin : B ∈ s.mem_areas := by rw [hl]; simp
  have hnd := hinv.ids_nodup
  rw [hl] at hnd
  obtain ⟨hBpre, hBpost, -, -⟩ := nodup_split hnd
  have hsubset : ∀ n ∈ preL ++ postR, n ∈ s.mem_areas := by
    intro n hn
    rw [hl]
    simp only [List.mem_append, List.mem_cons] at hn ⊢
    tauto
  have hne : ∀ n ∈ preL ++ postR, n.iter ≠ B.iter := by
    intro n hn h
    simp only [List.mem_append] at hn
    rcases hn with hn | hn
    · exact hBpre (h ▸ mem_ids_of_mem (List.mem_append_left _ hn))
    · exact hBpost (h ▸ mem_ids_of_mem (List.mem_append_right _ hn))
  have hBstack : B.iter ∉ s.last_freed_mem_areas := by
    intro h
    have := stack_entry_free hinv h hBin rfl
    rw [hBb] at this; cases this
  refine ⟨hok1.ids_nodup, ?_, ?_, hok1.live, hok1.dead, ?_, ?_, ?_, ?_, ?_, ?_,
    fun n hn => List.mem_cons_of_mem _ (hok1.stack_dead n hn)⟩
  · -- ids_fresh
    intro n hn
    show n.iter < s.fresh
    simp only [List.mem_append, List.mem_cons] at hn
    rcases hn with (hn | rfl | hn) | hn
    · exact hinv.ids_fresh n (List.mem_append_left _ (hsubset n (by simp [hn])))
    · exact hinv.ids_fresh B (List.mem_append_left _ hBin)
    · exact hinv.ids_fresh n (List.mem_append_left _ (hsubset n (by simp [hn])))
    · have := hsub.subset hn
      simp only [List.mem_append, List.mem_map] at this
      rcases this with (h | ⟨x, hx, rfl⟩) | ⟨x, hx, rfl⟩
      · exact hinv.ids_fresh n (List.mem_append_right _ h)
      · exact hinv.ids_fresh x (List.mem_append_left _ (by rw [hl]; simp [hx]))
      · exact hinv.ids_fresh x (List.mem_append_left _ (by rw [hl]; simp [hx]))
  · -- partition
    have hpart := hinv.partition
    rw [hl, List.append_assoc] at hpart
    show Partition 0 (preL ++ _) MEMORY_CAPACITY
    rw [partition_append] at hpart ⊢
    obtain ⟨lo, hp1, hp2⟩ := hpart
    refine ⟨lo, hp1, ?_⟩
    have hp3 := partition_skip hp2
    rw [partition_cons] at hp3
    obtain ⟨hBs, hp4⟩ := hp3
    have hp5 := partition_skip hp4
    rw [partition_cons]
    simp only [merged_area]
    refine ⟨by omega, ?_⟩
    have e : lo + (B.val.length + total_length Rr + total_length Lr) =
        lo + total_length Lr + B.val.length + total_length Rr := by omega
    rw [e]; exact hp5
  · -- no_adj
    have hadj := hinv.no_adj
    rw [hl, List.append_assoc, no_adjacent_free, List.chain'_append] at hadj
    obtain ⟨hc1, hc2, hc3⟩ := hadj
    have hc4 : List.Chain' (fun a b : list_node =>
        ¬ (a.val.state = mem_state_t.free ∧ b.val.state = mem_state_t.free)) (Rr ++ postR) :=
      (List.chain'_append.1 hc2).2.1.tail
    have hpost : ∀ y ∈ postR.head?, y.val.state ≠ mem_state_t.free := by
      rcases hR with ⟨-, h⟩ | ⟨nx, rfl, hnx⟩
      · exact h
      · intro y hy
        have := (List.chain'_cons'.1 hc4).1 y hy
        simpa [hnx] using this
    have hpre : ∀ x ∈ preL.getLast?, x.val.state ≠ mem_state_t.free := by
      rcases hL with ⟨-, h⟩ | ⟨pv, rfl, hpv⟩
      · exact h
      · intro x hx
        have := hc3 x hx pv (by simp)
        simpa [hpv] using this
    show no_adjacent_free (preL ++ _)
    rw [no_adjacent_free, List.chain'_append, List.chain'_cons']
    refine ⟨hc1, ⟨fun y hy => ?_, (List.chain'_append.1 hc4).2.1⟩, fun x hx y hy => ?_⟩
    · simp [hpost y hy]
    · simp [hpre x hx]
  · -- index_sound
    intro a it ha
    simp only at ha
    by_cases hea : a = B.val.start
    · simp [hea] at ha
    · simp only [hea, reduceIte] at ha
      obtain ⟨hacap, n, hn, hni, hnb, hns⟩ := hinv.index_sound a it ha
      refine ⟨hacap, n, ?_, hni, hnb, hns⟩
      rw [hl] at hn
      simp only [List.mem_append, List.mem_cons] at hn ⊢
      rcases hn with (hn | hn) | rfl | hn | hn
      · exact Or.inl hn
      · rw [hLf n hn] at hnb; cases hnb
      · exact absurd hns.symm hea
      · rw [hRf n hn] at hnb; cases hnb
      · exact Or.inr (Or.inr hn)
  · -- index_complete
    intro n hn hnb
    simp only [List.mem_append, List.mem_cons] at hn
    have hold : n ∈ preL ++ postR → (if n.val.start = B.val.start then none
        else s.cells_to_mem_area_map n.val.start) = some n.iter := by
      intro hn2
      have h1 := hinv.index_complete n (hsubset n hn2) hnb
      by_cases hes : n.val.start = B.val.start
      · have h2 := hinv.index_complete B hBin hBb
        rw [hes, h2] at h1
        exact absurd (Option.some.inj h1).symm (hne n hn2)
      · simp only [hes, reduceIte]; exact h1
    rcases hn with hn | rfl | hn
    · exact hold (by simp [hn])
    · simp [merged_area] at hnb
    · exact hold (by simp [hn])
  · -- stack_nodup
    show (B.iter :: stack1).Nodup
    rw [List.nodup_cons]
    exact ⟨fun h => hBstack (hsuf.subset h), hok1.stack_nodup⟩
  · -- stack_sound
    intro it hit
    simp only [List.mem_cons] at hit
    rcases hit with rfl | hit
    · exact Or.inl ⟨merged_area Lr B Rr, by simp, rfl, rfl⟩
    · exact hok1.stack_sound it hit
  · -- stack_free
    intro n hn hnf
    show n.iter ∈ B.iter :: stack1
    have hn0 := hn
    simp only [List.mem_append, List.mem_cons] at hn
    rcases hn with hn | rfl | hn
    · exact List.mem_cons_of_mem _
        (hkeep n hn0 (hinv.stack_free n (hsubset n (by simp [hn])) hnf))
    · exact List.mem_cons_self _ _
    · exact List.mem_cons_of_mem _
        (hkeep n hn0 (hinv.stack_free n (hsubset n (by simp [hn])) hnf))

/-- Releasing the start of a busy area returns 0; the state it leaves is written out on
the area list split at that area, and satisfies the invariant. -/
theorem free_ok {s : allocator_state} (hinv : Inv s) {pre post : List list_node}
    {B : list_node} (hl : s.mem_areas = pre ++ B :: post)
    (hBb : B.val.state = mem_state_t.busy) :
    ∃ preL Lr Rr postR stack1 g1, pre = preL ++ Lr ∧ post = Rr ++ postR ∧
      ((Lr = [] ∧ ∀ x ∈ preL.getLast?, x.val.state ≠ mem_state_t.free) ∨
        ∃ pv, Lr = [pv] ∧ pv.val.state = mem_state_t.free) ∧
      ((Rr = [] ∧ ∀ y ∈ postR.head?, y.val.state ≠ mem_state_t.free) ∨
        ∃ nx, Rr = [nx] ∧ nx.val.state = mem_state_t.free) ∧
      prune_stack (preL ++ merged_area Lr B Rr :: postR) s.last_freed_mem_areas
          (s.invalid_mem_areas ++ Rr.map invalidated ++ Lr.map invalidated) =
        .ok (stack1, g1) ∧
      free_ s (Int.ofNat B.val.start) =
        .ok (0,
          { mem_areas := preL ++ merged_area Lr B Rr :: postR
            invalid_mem_areas := g1
            last_freed_mem_areas := B.iter :: stack1
            cells_to_mem_area_map := fun a =>
              if a = B.val.start then none else s.cells_to_mem_area_map a
            fresh := s.fresh }) ∧
      Inv
        { mem_areas := preL ++ merged_area Lr B Rr :: postR
          invalid_mem_areas := g1
          last_freed_mem_areas := B.iter :: stack1
          cells_to_mem_area_map := fun a =>
            if a = B.val.start then none else s.cells_to_mem_area_map a
          fresh := s.fresh } := by
  obtain ⟨preL, Lr, Rr, postR, hpre, hpost, hL, hR, hmerge⟩ := free_merge hinv hl
  have hl2 : s.mem_areas = (preL ++ Lr) ++ B :: (Rr ++ postR) := by rw [hl, hpre, hpost]
  have hLf : ∀ x ∈ Lr, x.val.state = mem_state_t.free := by
    rcases hL with ⟨rfl, -⟩ | ⟨pv, rfl, hpv⟩
    · simp
    · simpa using hpv
  have hRf : ∀ x ∈ Rr, x.val.state = mem_state_t.free := by
    rcases hR with ⟨rfl, -⟩ | ⟨nx, rfl, hnx⟩
    · simp
    · simpa using hnx
  have hok := free_stack_ok hinv hl2 hBb hLf hRf
  obtain ⟨stack1, g1, hprune, hok1, hsuf, hsub, hkeep, -⟩ := prune_stack_ok _ _ _ hok
  have hBin : B ∈ s.mem_areas := by rw [hl]; simp
  have hcell := hinv.index_complete B hBin hBb
  have hcap := (hinv.index_sound _ _ hcell).1
  have hnd := hinv.ids_nodup
  rw [hl] at hnd
  obtain ⟨hBpre, -, -, -⟩ := nodup_split hnd
  have hfind : list_find B.iter s.mem_areas = some B := by
    rw [hl]; exact list_find_append B.iter pre post B rfl hBpre
  refine ⟨preL, Lr, Rr, postR, stack1, g1, hpre, hpost, hL, hR, hprune, ?_,
    free_result_inv hinv hl2 hBb hL hR hok1 hsuf hsub hkeep⟩
  have hneg : ¬ (Int.ofNat B.val.start < 0) := by simp
  have e : (Int.ofNat B.val.start).toNat = B.val.start := rfl
  simp only [free_, hneg, reduceIte, e, hcap, hcell, hfind, hmerge, hprune]

/-- What `free_` does when it returns, read off its text: either the slot is empty and
nothing changes, or the slot is filled and is emptied. -/
theorem free_returns {s s1 : allocator_state} {a_address : Int} {r : Int}
    (h : free_ s a_address = .ok (r, s1)) :
    0 ≤ a_address ∧ a_address.toNat < MEMORY_CAPACITY ∧
      ((r = -1 ∧ s1 = s ∧ s.cells_to_mem_area_map a_address.toNat = none) ∨
        (r = 0 ∧ (∃ it, s.cells_to_mem_area_map a_address.toNat = some it) ∧
          s1.cells_to_mem_area_map = fun a =>
            if a = a_address.toNat then none else s.cells_to_mem_area_map a)) := by
  unfold free_ at h
  by_cases hneg : a_address < 0
  · simp [hneg] at h
  simp only [hneg, reduceIte] at h
  by_cases hcap : a_address.toNat < MEMORY_CAPACITY
  case neg => simp [hcap] at h
  simp only [hcap, reduceIte] at h
  refine ⟨by omega, hcap, ?_⟩
  cases hcell : s.cells_to_mem_area_map a_address.toNat with
  | none =>
    simp only [hcell, Except.ok.injEq, Prod.mk.injEq] at h
    exact Or.inl ⟨h.1.symm, h.2.symm, rfl⟩
  | some it =>
    simp only [hcell] at h
    cases hfind : list_find it s.mem_areas with
    | none => simp [hfind] at h
    | some B =>
      simp only [hfind] at h
      split at h
      · simp at h
      · split at h
        · simp at h
        · simp only [Except.ok.injEq, Prod.mk.injEq] at h
          refine Or.inr ⟨h.1.symm, ⟨it, rfl⟩, ?_⟩
          rw [← h.2]

theorem free_inv {s s1 : allocator_state} {a_address : Int} {r : Int} (hinv : Inv s)
    (h : free_ s a_address = .ok (r, s1)) : Inv s1 := by
  obtain ⟨hnn, -, hcase⟩ := free_returns h
  rcases hcase with ⟨-, rfl, -⟩ | ⟨-, ⟨it, hcell⟩, -⟩
  · exact hinv
  · obtain ⟨-, B, hBin, -, hBb, hBs⟩ := hinv.index_sound _ _ hcell
    obtain ⟨pre, post, hl⟩ := List.append_of_mem hBin
    obtain ⟨preL, Lr, Rr, postR, stack1, g1, -, -, -, -, -, hfree, hinv1⟩ := free_ok hinv hl hBb
    have e : Int.ofNat B.val.start = a_address := by
      rw [hBs]
      exact Int.toNat_of_nonneg hnn
    rw [e, h] at hfree
    simp only [Except.ok.injEq, Prod.mk.injEq] at hfree
    rw [hfree.2]
    exact hinv1

/-- Every state the program can be in between calls satisfies the invariant. -/
theorem reachable_inv {s : allocator_state} (h : Reachable s) : Inv s := by
  induction h with
  | init => exact init_inv
  | malloc_ _ hm ih => exact malloc_inv ih hm
  | free_ _ hf ih => exact free_inv ih hf

/-- The state at the end of a run of calls from a reachable state is reachable. -/
theorem reachable_run {s s1 : allocator_state} {rs : List Int} (hs : Reachable s)
    (cs : List call) (h : run s cs = .ok (rs, s1)) : Reachable s1 := by
  induction cs generalizing s rs with
  | nil =>
    simp only [run, Except.ok.injEq, Prod.mk.injEq] at h
    exact h.2 ▸ hs
  | cons c cs ih =>
    simp only [run] at h
    cases hstep : step s c with
    | error e => simp [hstep] at h
    | ok p =>
      obtain ⟨r, s2⟩ := p
      simp only [hstep] at h
      cases hrun : run s2 cs with
      | error e => simp [hrun] at h
      | ok q =>
        obtain ⟨rs2, s3⟩ := q
        simp only [hrun, Except.ok.injEq, Prod.mk.injEq] at h
        have hs2 : Reachable s2 := by
          cases c with
          | allocate size => exact Reachable.malloc_ hs hstep
          | release address => exact Reachable.free_ hs hstep
        obtain ⟨-, rfl⟩ := h
        exact ih hs2 hrun

/-! ## A successful `malloc_` -/

theorem free_length_le (l : List list_node) : free_length l ≤ total_length l := by
  induction l with
  | nil => simp [free_length]
  | cons n l ih =>
    simp only [free_length, List.filter_cons, total_length_cons] at ih ⊢
    split
    · simp only [total_length_cons]; omega
    · omega

theorem free_length_mem {l : List list_node} {n : list_node} (hn : n ∈ l)
    (hf : n.val.state = mem_state_t.free) : n.val.length ≤ free_length l := by
  induction l with
  | nil => simp at hn
  | cons m l ih =>
    simp only [free_length, List.filter_cons] at ih ⊢
    rcases List.mem_cons.1 hn with rfl | h
    · simp [hf]
    · have := ih h
      split
      · simp only [total_length_cons]; omega
      · exact this

/-- On a list without invalid areas `__free_space` returns the total length of the free
areas. -/
theorem free_space_ok {l : List list_node}
    (hlive : ∀ n ∈ l, n.val.state ≠ mem_state_t.invalid) (hb : total_length l < SIZE_MOD) :
    __free_space l = .ok (free_length l) := by
  induction l with
  | nil => rfl
  | cons n l ih =>
    have h1 := hlive n (List.mem_cons_self _ _)
    simp only [total_length_cons] at hb
    have h2 := ih (fun m hm => hlive m (List.mem_cons_of_mem _ hm)) (by omega)
    have h3 := free_length_le l
    simp only [__free_space, h1, reduceIte, h2]
    by_cases hf : n.val.state = mem_state_t.free
    · have e : free_length (n :: l) = n.val.length + free_length l := by
        simp [free_length, hf]
      simp only [hf, reduceIte, e]
      rw [Nat.mod_eq_of_lt (by omega)]
    · have e : free_length (n :: l) = free_length l := by
        simp [free_length, hf]
      simp only [hf, reduceIte, e]

theorem inv_free_space {s : allocator_state} (hinv : Inv s) :
    __free_space s.mem_areas = .ok (free_length s.mem_areas) := by
  apply free_space_ok hinv.live
  have := partition_total hinv.partition
  have hcap : MEMORY_CAPACITY = 1000 := rfl
  have hmod : SIZE_MOD = 18446744073709551616 := rfl
  omega

theorem to_int_small {x : Nat} (h : x < MEMORY_CAPACITY) : to_int x = Int.ofNat x := by
  have hcap : MEMORY_CAPACITY = 1000 := rfl
  have e : x % 4294967296 = x := Nat.mod_eq_of_lt (by omega)
  have h2 : x < 2147483648 := by omega
  simp [to_int, e, h2]

/-- With a free area of positive length at least `a_size` at the top of the stack,
`malloc_` returns the start of that area. -/
theorem malloc_ok {s : allocator_state} (hinv : Inv s) {top : Nat} {rest : List Nat}
    {F : list_node} {a_size : Nat} (hstack : s.last_freed_mem_areas = top :: rest)
    (hF : F ∈ s.mem_areas) (hFi : F.iter = top) (hlen : a_size ≤ F.val.length)
    (hpos : 0 < F.val.length) (hcell : s.cells_to_mem_area_map F.val.start = none) :
    ∃ s1, malloc_ s a_size = .ok (Int.ofNat F.val.start, s1) := by
  obtain ⟨pre, post, hl⟩ := List.append_of_mem hF
  have hnd := hinv.ids_nodup
  rw [hl] at hnd
  obtain ⟨hFpre, -, -, -⟩ := nodup_split hnd
  have hfind : list_find top s.mem_areas = some F := by
    rw [hl]; exact list_find_append top pre post F hFi (hFi ▸ hFpre)
  have hFfree : F.val.state = mem_state_t.free :=
    stack_entry_free hinv (by rw [hstack]; simp) hF hFi
  have hspace : free_length s.mem_areas ≠ 0 := by
    have := free_length_mem hF hFfree
    omega
  have hpart := hinv.partition
  rw [hl] at hpart
  have hp2 := partition_skip hpart
  rw [partition_cons] at hp2
  have hle := partition_le hp2.2
  have haddr : F.val.start < MEMORY_CAPACITY := by omega
  have hstate : F.val.state ≠ mem_state_t.invalid := by rw [hFfree]; simp
  have hge : F.val.length ≥ a_size := hlen
  simp only [malloc_, inv_free_space hinv, hstack, List.isEmpty_cons, Bool.false_eq_true,
    reduceIte, hspace, ne_eq, not_false_eq_true, deref, hfind, hge, hstate, haddr, hcell,
    Option.isSome_none, to_int_small haddr]
  exact ⟨_, rfl⟩

/-! ## Releasing two neighbouring allocations -/

/-- Releasing the left one of two neighbouring busy areas and then the right one. -/
theorem release_left_then_right {s : allocator_state} (hinv : Inv s)
    {P Q : List list_node} {A B : list_node} (hl : s.mem_areas = P ++ A :: B :: Q)
    (hA : A.val.state = mem_state_t.busy) (hB : B.val.state = mem_state_t.busy) :
    ∃ s2 P1 Lr Rr Q1 M,
      run s [call.release (Int.ofNat A.val.start), call.release (Int.ofNat B.val.start)] =
        .ok ([0, 0], s2) ∧
      P = P1 ++ Lr ∧ Q = Rr ++ Q1 ∧
      ((Lr = [] ∧ ∀ x ∈ P1.getLast?, x.val.state ≠ mem_state_t.free) ∨
        ∃ pv, Lr = [pv] ∧ pv.val.state = mem_state_t.free) ∧
      ((Rr = [] ∧ ∀ y ∈ Q1.head?, y.val.state ≠ mem_state_t.free) ∨
        ∃ nx, Rr = [nx] ∧ nx.val.state = mem_state_t.free) ∧
      s2.mem_areas = P1 ++ M :: Q1 ∧
      M.val = ⟨A.val.start - total_length Lr,
        total_length Lr + A.val.length + B.val.length + total_length Rr, mem_state_t.free⟩ ∧
      s2.cells_to_mem_area_map A.val.start = none ∧
      s2.cells_to_mem_area_map B.val.start = none ∧ Inv s2 := by
  have hpart := hinv.partition
  rw [hl] at hpart
  have hp1 := partition_skip hpart
  simp only [partition_cons] at hp1
  obtain ⟨hAs, hBs, -⟩ := hp1
  obtain ⟨preL, Lr, Rr, postR, stack1, g1, hpre, hpost, hL, hR, -, hfree1, hinv1⟩ :=
    free_ok hinv hl hA
  have hRr : Rr = [] ∧ postR = B :: Q := by
    rcases hR with ⟨rfl, -⟩ | ⟨nx, rfl, hnx⟩
    · exact ⟨rfl, by simpa using hpost.symm⟩
    · simp only [List.singleton_append, List.cons.injEq] at hpost
      rw [← hpost.1, hB] at hnx
      cases hnx
  obtain ⟨rfl, rfl⟩ := hRr
  have hl1 : (preL ++ merged_area Lr A [] :: B :: Q) =
      (preL ++ [merged_area Lr A []]) ++ B :: Q := by simp
  obtain ⟨preL2, Lr2, Rr2, postR2, stack2, g2, hpre2, hpost2, hL2, hR2, -, hfree2, hinv2⟩ :=
    free_ok hinv1 hl1 hB
  rcases hL2 with ⟨rfl, hx⟩ | ⟨pv, rfl, hpv⟩
  · exfalso
    rw [List.append_nil] at hpre2
    rw [← hpre2] at hx
    exact hx (merged_area Lr A []) (by simp) rfl
  · obtain ⟨hP, hM⟩ := List.append_inj' hpre2 rfl
    simp only [List.cons.injEq, and_true] at hM
    subst hP
    subst hM
    refine ⟨_, preL, Lr, Rr2, postR2, merged_area [merged_area Lr A []] B Rr2, ?_, hpre, hpost2,
      hL, hR2, rfl, ?_, ?_, ?_, hinv2⟩
    · simp only [run, step, hfree1, hfree2]
    · simp only [merged_area, total_length_cons, total_length_nil, mem_area_t.mk.injEq,
        and_true]
      constructor <;> omega
    · simp
    · simp

/-- Releasing the right one of two neighbouring busy areas and then the left one. -/
theorem release_right_then_left {s : allocator_state} (hinv : Inv s)
    {P Q : List list_node} {A B : list_node} (hl : s.mem_areas = P ++ A :: B :: Q)
    (hA : A.val.state = mem_state_t.busy) (hB : B.val.state = mem_state_t.busy) :
    ∃ s2 P1 Lr Rr Q1 M,
      run s [call.release (Int.ofNat B.val.start), call.release (Int.ofNat A.val.start)] =
        .ok ([0, 0], s2) ∧
      P = P1 ++ Lr ∧ Q = Rr ++ Q1 ∧
      ((Lr = [] ∧ ∀ x ∈ P1.getLast?, x.val.state ≠ mem_state_t.free) ∨
        ∃ pv, Lr = [pv] ∧ pv.val.state = mem_state_t.free) ∧
      ((Rr = [] ∧ ∀ y ∈ Q1.head?, y.val.state ≠ mem_state_t.free) ∨
        ∃ nx, Rr = [nx] ∧ nx.val.state = mem_state_t.free) ∧
      s2.mem_areas = P1 ++ M :: Q1 ∧
      M.val = ⟨A.val.start - total_length Lr,
        total_length Lr + A.val.length + B.val.length + total_length Rr, mem_state_t.free⟩ ∧
      s2.cells_to_mem_area_map A.val.start = none ∧
      s2.cells_to_mem_area_map B.val.start = none ∧ Inv s2 := by
  have hl0 : s.mem_areas = (P ++ [A]) ++ B :: Q := by rw [hl]; simp
  obtain ⟨preL, Lr, Rr, postR, stack1, g1, hpre, hpost, hL, hR, -, hfree1, hinv1⟩ :=
    free_ok hinv hl0 hB
  have hLr : Lr = [] ∧ preL = P ++ [A] := by
    rcases hL with ⟨rfl, -⟩ | ⟨pv, rfl, hpv⟩
    · exact ⟨rfl, by simpa using hpre.symm⟩
    · obtain ⟨-, hM⟩ := List.append_inj' hpre rfl
      simp only [List.cons.injEq, and_true] at hM
      rw [← hM, hA] at hpv
      cases hpv
  obtain ⟨rfl, rfl⟩ := hLr
  have hl1 : (P ++ [A] ++ merged_area [] B Rr :: postR) =
      P ++ A :: (merged_area [] B Rr :: postR) := by simp
  obtain ⟨preL2, Lr2, Rr2, postR2, stack2, g2, hpre2, hpost2, hL2, hR2, -, hfree2, hinv2⟩ :=
    free_ok hinv1 hl1 hA
  rcases hR2 with ⟨rfl, hy⟩ | ⟨nx, rfl, hnx⟩
  · exfalso
    rw [List.nil_append] at hpost2
    rw [← hpost2] at hy
    exact hy (merged_area [] B Rr) (by simp) rfl
  · simp only [List.singleton_append, List.cons.injEq] at hpost2
    obtain ⟨hM, hQ⟩ := hpost2
    subst hM
    subst hQ
    refine ⟨_, preL2, Lr2, Rr, postR, merged_area Lr2 A [merged_area [] B Rr], ?_, hpre2,
      hpost, hL2, hR, rfl, ?_, ?_, ?_, hinv2⟩
    · simp only [run, step, hfree1, hfree2]
    · simp only [merged_area, total_length_cons, total_length_nil, mem_area_t.mk.injEq,
        and_true]
      refine ⟨trivial, ?_⟩
      omega
    · simp
    · simp

/-! ## The claims -/

/-- C1 (the internal assertions are unreachable) does not hold of the code.  After the
ten returning calls of `stale_top_calls` (positive sizes, addresses in range) the top of
the stack points at an invalid area, and `malloc_(1)` stops at the assertion of line 87.
After the seven returning calls of `exhausted_calls` the stack is not empty while no area
is free, and `malloc_(1)` stops at the assertion of line 83. -/
theorem C1_assertions_are_reachable :
    observe (run init stale_top_calls) =
        .ok ([0, 100, 200, 300, 400, 0, 0, 0, 0, 300],
          [⟨11, ⟨0, 200, mem_state_t.busy⟩⟩, ⟨5, ⟨200, 100, mem_state_t.busy⟩⟩,
            ⟨13, ⟨300, 100, mem_state_t.busy⟩⟩, ⟨9, ⟨400, 100, mem_state_t.busy⟩⟩,
            ⟨10, ⟨500, 500, mem_state_t.free⟩⟩],
          [⟨1, ⟨0, 100, mem_state_t.invalid⟩⟩], [1, 10]) ∧
      malloc_ (state_after stale_top_calls) 1 = .error (fault.assertion 87) ∧
      observe (run init exhausted_calls) =
        .ok ([0, 100, 200, 0, 0, 200, 0],
          [⟨9, ⟨0, 100, mem_state_t.busy⟩⟩, ⟨3, ⟨100, 100, mem_state_t.busy⟩⟩,
            ⟨7, ⟨200, 800, mem_state_t.busy⟩⟩],
          [⟨6, ⟨300, 700, mem_state_t.invalid⟩⟩], [6]) ∧
      malloc_ (state_after exhausted_calls) 1 = .error (fault.assertion 83) := by
  refine ⟨by decide, by rfl, by decide, by rfl⟩

theorem reachable_state_after (cs : List call) : Reachable (state_after cs) := by
  unfold state_after
  cases h : run init cs with
  | error e => exact Reachable.init
  | ok p =>
    obtain ⟨rs, s⟩ := p
    exact reachable_run Reachable.init cs h

theorem observe_ok {r : Except fault (List Int × allocator_state)} {rs : List Int}
    {s : allocator_state} (h : r = .ok (rs, s)) :
    observe r = .ok (rs, s.mem_areas, s.invalid_mem_areas, s.last_freed_mem_areas) := by
  rw [h]; rfl

/-- C2 as stated (releasing two adjacent allocations of sizes `a` and `b` at `x` and `x+a`
leaves a free region of length `a+b` starting at `x`) fails: after `allocate(100)` and
`allocate(50)` the areas at 0 and 100 are busy and adjacent; releasing both leaves the
single free area `(0, 1000)`, because the free area at 150 is absorbed as well, and no
free area `(0, 150)`. -/
theorem C2_counterexample :
    (state_after [call.allocate 100, call.allocate 50]).mem_areas =
        [⟨1, ⟨0, 100, mem_state_t.busy⟩⟩, ⟨3, ⟨100, 50, mem_state_t.busy⟩⟩,
          ⟨4, ⟨150, 850, mem_state_t.free⟩⟩] ∧
      observe (run (state_after [call.allocate 100, call.allocate 50])
          [call.release 0, call.release 100]) =
        .ok ([0, 0], [⟨3, ⟨0, 1000, mem_state_t.free⟩⟩], [], [3]) ∧
      ¬ ∃ rs s2, run (state_after [call.allocate 100, call.allocate 50])
          [call.release 0, call.release 100] = .ok (rs, s2) ∧
        ∃ n ∈ s2.mem_areas, n.val = ⟨0, 150, mem_state_t.free⟩ := by
  have h2 : observe (run (state_after [call.allocate 100, call.allocate 50])
      [call.release 0, call.release 100]) =
      .ok ([0, 0], [⟨3, ⟨0, 1000, mem_state_t.free⟩⟩], [], [3]) := by decide
  refine ⟨by decide, h2, ?_⟩
  rintro ⟨rs, s2, hrun, n, hn, hv⟩
  rw [observe_ok hrun] at h2
  simp only [Except.ok.injEq, Prod.mk.injEq] at h2
  rw [h2.2.1, List.mem_singleton] at hn
  rw [hn] at hv
  revert hv
  decide

/-- C2, amended: in a reachable state with two busy areas `A` and `B` next to each other
in the Ledger (`B` starts where `A` ends), releasing both, in either order, returns 0
twice and leaves in their place one free area `M`, which has also absorbed the area right
before `A` when that one was free (`Lr`) and the area right after `B` when that one was
free (`Rr`); `M` is exactly `(A.start, A.length + B.length)` when neither neighbour was
free.  The slots of both addresses are empty afterwards. -/
theorem C2_merge_correctness (s : allocator_state) (hr : Reachable s)
    (P Q : List list_node) (A B : list_node) (hl : s.mem_areas = P ++ A :: B :: Q)
    (hA : A.val.state = mem_state_t.busy) (hB : B.val.state = mem_state_t.busy) :
    B.val.start = A.val.start + A.val.length ∧
    ∀ cs : List call,
      cs = [call.release (Int.ofNat A.val.start), call.release (Int.ofNat B.val.start)] ∨
        cs = [call.release (Int.ofNat B.val.start), call.release (Int.ofNat A.val.start)] →
      ∃ s2 P1 Lr Rr Q1 M,
        run s cs = .ok ([0, 0], s2) ∧ P = P1 ++ Lr ∧ Q = Rr ++ Q1 ∧
        ((Lr = [] ∧ ∀ x ∈ P.getLast?, x.val.state ≠ mem_state_t.free) ∨
          ∃ pv, Lr = [pv] ∧ pv.val.state = mem_state_t.free) ∧
        ((Rr = [] ∧ ∀ y ∈ Q.head?, y.val.state ≠ mem_state_t.free) ∨
          ∃ nx, Rr = [nx] ∧ nx.val.state = mem_state_t.free) ∧
        s2.mem_areas = P1 ++ M :: Q1 ∧
        M.val = ⟨A.val.start - total_length Lr,
          total_length Lr + A.val.length + B.val.length + total_length Rr,
          mem_state_t.free⟩ ∧
        s2.cells_to_mem_area_map A.val.start = none ∧
        s2.cells_to_mem_area_map B.val.start = none := by
  have hinv := reachable_inv hr
  have hpart := hinv.partition
  rw [hl] at hpart
  have hp1 := partition_skip hpart
  simp only [partition_cons] at hp1
  obtain ⟨hAs, hBs, -⟩ := hp1
  refine ⟨by omega, ?_⟩
  have key : ∀ P1 Lr Rr Q1 : List list_node, P = P1 ++ Lr → Q = Rr ++ Q1 →
      ((Lr = [] ∧ ∀ x ∈ P1.getLast?, x.val.state ≠ mem_state_t.free) ∨
        ∃ pv, Lr = [pv] ∧ pv.val.state = mem_state_t.free) →
      ((Rr = [] ∧ ∀ y ∈ Q1.head?, y.val.state ≠ mem_state_t.free) ∨
        ∃ nx, Rr = [nx] ∧ nx.val.state = mem_state_t.free) →
      ((Lr = [] ∧ ∀ x ∈ P.getLast?, x.val.state ≠ mem_state_t.free) ∨
        ∃ pv, Lr = [pv] ∧ pv.val.state = mem_state_t.free) ∧
      ((Rr = [] ∧ ∀ y ∈ Q.head?, y.val.state ≠ mem_state_t.free) ∨
        ∃ nx, Rr = [nx] ∧ nx.val.state = mem_state_t.free) := by
    intro P1 Lr Rr Q1 hP hQ hL hR
    constructor
    · rcases hL with ⟨rfl, h⟩ | h
      · rw [List.append_nil] at hP
        exact Or.inl ⟨rfl, hP ▸ h⟩
      · exact Or.inr h
    · rcases hR with ⟨rfl, h⟩ | h
      · rw [List.nil_append] at hQ
        exact Or.inl ⟨rfl, hQ ▸ h⟩
      · exact Or.inr h
  intro cs hcs
  rcases hcs with rfl | rfl
  · obtain ⟨s2, P1, Lr, Rr, Q1, M, h1, h2, h3, h4, h5, h6, h7, h8, h9, -⟩ :=
      release_left_then_right hinv hl hA hB
    obtain ⟨k1, k2⟩ := key P1 Lr Rr Q1 h2 h3 h4 h5
    exact ⟨s2, P1, Lr, Rr, Q1, M, h1, h2, h3, k1, k2, h6, h7, h8, h9⟩
  · obtain ⟨s2, P1, Lr, Rr, Q1, M, h1, h2, h3, h4, h5, h6, h7, h8, h9, -⟩ :=
      release_right_then_left hinv hl hA hB
    obtain ⟨k1, k2⟩ := key P1 Lr Rr Q1 h2 h3 h4 h5
    exact ⟨s2, P1, Lr, Rr, Q1, M, h1, h2, h3, k1, k2, h6, h7, h8, h9⟩

/-- C2 at the state after `allocate(100)`, `allocate(50)`, for the areas at 0 and 100. -/
theorem C2_merge_correctness_witness :
    Reachable (state_after [call.allocate 100, call.allocate 50]) ∧
      (state_after [call.allocate 100, call.allocate 50]).mem_areas =
        [] ++ (⟨1, ⟨0, 100, mem_state_t.busy⟩⟩ : list_node) ::
          ⟨3, ⟨100, 50, mem_state_t.busy⟩⟩ :: [⟨4, ⟨150, 850, mem_state_t.free⟩⟩] ∧
      ∃ s2 P1 Lr Rr Q1 M,
        run (state_after [call.allocate 100, call.allocate 50])
            [call.release 100, call.release 0] = .ok ([0, 0], s2) ∧
          ([] : List list_node) = P1 ++ Lr ∧
          [(⟨4, ⟨150, 850, mem_state_t.free⟩⟩ : list_node)] = Rr ++ Q1 ∧
          s2.mem_areas = P1 ++ M :: Q1 ∧ M.val = ⟨0, 1000, mem_state_t.free⟩ := by
  refine ⟨reachable_state_after _, by decide, ?_⟩
  obtain ⟨s2, P1, Lr, Rr, Q1, M, h1, h2, h3, -, h5, h6, h7, -, -⟩ :=
    (C2_merge_correctness (state_after [call.allocate 100, call.allocate 50])
      (reachable_state_after _) [] [⟨4, ⟨150, 850, mem_state_t.free⟩⟩]
      ⟨1, ⟨0, 100, mem_state_t.busy⟩⟩ ⟨3, ⟨100, 50, mem_state_t.busy⟩⟩
      (by decide) rfl rfl).2 [call.release 100, call.release 0] (Or.inr rfl)
  refine ⟨s2, P1, Lr, Rr, Q1, M, h1, h2, h3, h6, ?_⟩
  have hLr : Lr = [] := by
    have := congrArg List.length h2
    simp only [List.length_nil, List.length_append] at this
    exact List.length_eq_zero.1 (by omega)
  rcases h5 with ⟨hRr, hy⟩ | ⟨nx, hRr, -⟩
  · exact absurd rfl (hy _ rfl)
  · subst hRr
    subst hLr
    simp only [List.singleton_append, List.cons.injEq] at h3
    rw [h7, ← h3.1]
    rfl

/-- C3 as stated (a release of any address without a live allocation, negative ones
included, returns the failure value and is never fatal) fails: no allocation is live in the
initial state, and `free_(-1)` stops at the assertion of line 118 instead of returning. -/
theorem C3_counterexample :
    free_ init (-1) = .error (fault.assertion 118) ∧
      ¬ ∃ s1, free_ init (-1) = .ok (-1, s1) := by
  have h : free_ init (-1) = .error (fault.assertion 118) := by rfl
  refine ⟨h, ?_⟩
  rintro ⟨s1, h1⟩
  rw [h] at h1
  cases h1

/-- C3, amended: in a reachable state, `free_` of an address in `[0, MEMORY_CAPACITY)`
at which no busy area starts returns -1 and leaves the state as it was; `free_` of a
negative address stops at the assertion of line 118. -/
theorem C3_release_unknown_address (s : allocator_state) (hr : Reachable s)
    (a_address : Int) :
    (0 ≤ a_address → a_address < Int.ofNat MEMORY_CAPACITY →
      (∀ n ∈ s.mem_areas, n.val.state = mem_state_t.busy →
        Int.ofNat n.val.start ≠ a_address) →
      free_ s a_address = .ok (-1, s)) ∧
    (a_address < 0 → free_ s a_address = .error (fault.assertion 118)) := by
  constructor
  · intro h0 hcap hno
    have hneg : ¬ a_address < 0 := by omega
    have hlt : a_address.toNat < MEMORY_CAPACITY := by
      have : Int.ofNat a_address.toNat = a_address := Int.toNat_of_nonneg h0
      rw [← this] at hcap
      exact Int.ofNat_lt.1 hcap
    have hcell : s.cells_to_mem_area_map a_address.toNat = none := by
      cases hc : s.cells_to_mem_area_map a_address.toNat with
      | none => rfl
      | some it =>
        obtain ⟨-, n, hn, -, hnb, hns⟩ := (reachable_inv hr).index_sound _ _ hc
        exact absurd (by rw [hns]; exact Int.toNat_of_nonneg h0) (hno n hn hnb)
    simp only [free_, hneg, reduceIte, hlt, hcell]
  · intro hneg
    simp only [free_, hneg, reduceIte]

/-- C3 at the initial state: address 5 is returned as unknown, address -3 is fatal. -/
theorem C3_release_unknown_address_witness :
    Reachable init ∧ free_ init 5 = .ok (-1, init) ∧
      free_ init (-3) = .error (fault.assertion 118) :=
  ⟨Reachable.init,
    (C3_release_unknown_address init Reachable.init 5).1 (by decide) (by decide)
      (by decide),
    (C3_release_unknown_address init Reachable.init (-3)).2 (by decide)⟩

/-- C4: in every reachable state the lengths of the areas of the Ledger add up to
`MEMORY_CAPACITY`. -/
theorem C4_capacity_conservation (s : allocator_state) (hr : Reachable s) :
    total_length s.mem_areas = MEMORY_CAPACITY := by
  have := partition_total (reachable_inv hr).partition
  omega

/-- C4 at the state after the calls of `stale_top_calls`. -/
theorem C4_capacity_conservation_witness :
    Reachable (state_after stale_top_calls) ∧
      total_length (state_after stale_top_calls).mem_areas = 1000 :=
  ⟨reachable_state_after _,
    C4_capacity_conservation (state_after stale_top_calls) (reachable_state_after _)⟩

/-- C5: in every reachable state, for every address `a` below `MEMORY_CAPACITY`, the slot
`a` of the Address Index is filled exactly when a busy area of the Ledger starts at `a`;
the slot then holds the iterator of such an area, and that iterator is the iterator of no
other area of the Ledger. -/
theorem C5_index_ledger_consistency (s : allocator_state) (hr : Reachable s) (a : Nat)
    (_ha : a < MEMORY_CAPACITY) :
    ((s.cells_to_mem_area_map a).isSome ↔
      ∃ n ∈ s.mem_areas, n.val.state = mem_state_t.busy ∧ n.val.start = a) ∧
    (∀ n ∈ s.mem_areas, n.val.state = mem_state_t.busy → n.val.start = a →
      s.cells_to_mem_area_map a = some n.iter) ∧
    (∀ it, s.cells_to_mem_area_map a = some it →
      ∃ n ∈ s.mem_areas, n.iter = it ∧ n.val.state = mem_state_t.busy ∧ n.val.start = a ∧
        ∀ m ∈ s.mem_areas, m.iter = it → m = n) := by
  have hinv := reachable_inv hr
  have hinj : ∀ n ∈ s.mem_areas, ∀ m ∈ s.mem_areas, m.iter = n.iter → m = n := by
    intro n hn m hm h
    have hnd := hinv.ids_nodup
    rw [ids_append] at hnd
    exact List.inj_on_of_nodup_map (List.nodup_append.1 hnd).1 hm hn h
  refine ⟨⟨fun h => ?_, fun h => ?_⟩, fun n hn hnb hns => ?_, fun it hc => ?_⟩
  · obtain ⟨it, hc⟩ := Option.isSome_iff_exists.1 h
    obtain ⟨-, n, hn, -, hnb, hns⟩ := hinv.index_sound a it hc
    exact ⟨n, hn, hnb, hns⟩
  · obtain ⟨n, hn, hnb, hns⟩ := h
    rw [← hns, hinv.index_complete n hn hnb]
    rfl
  · rw [← hns]
    exact hinv.index_complete n hn hnb
  · obtain ⟨-, n, hn, hni, hnb, hns⟩ := hinv.index_sound a it hc
    exact ⟨n, hn, hni, hnb, hns, fun m hm hmi => hinj n hn m hm (hmi.trans hni.symm)⟩

/-- C5 at the state after the calls of `stale_top_calls`, for the address 300. -/
theorem C5_index_ledger_consistency_witness :
    Reachable (state_after stale_top_calls) ∧ 300 < MEMORY_CAPACITY ∧
      (state_after stale_top_calls).cells_to_mem_area_map 300 = some 13 :=
  ⟨reachable_state_after _, by decide,
    (C5_index_ledger_consistency (state_after stale_top_calls) (reachable_state_after _) 300
      (by decide)).2.1 ⟨13, ⟨300, 100, mem_state_t.busy⟩⟩ (by decide) rfl rfl⟩

/-- C6: in every reachable state no two neighbouring areas of the Ledger are both
free. -/
theorem C6_no_adjacent_free (s : allocator_state) (hr : Reachable s) :
    no_adjacent_free s.mem_areas :=
  (reachable_inv hr).no_adj

/-- C6 at the state after `allocate(100)`, `allocate(50)`, `release(0)`, where two areas are
free and a busy one lies between them. -/
theorem C6_no_adjacent_free_witness :
    Reachable (state_after [call.allocate 100, call.allocate 50, call.release 0]) ∧
      no_adjacent_free
        [⟨1, ⟨0, 100, mem_state_t.free⟩⟩, ⟨3, ⟨100, 50, mem_state_t.busy⟩⟩,
          ⟨4, ⟨150, 850, mem_state_t.free⟩⟩] :=
  ⟨reachable_state_after _,
    C6_no_adjacent_free (state_after [call.allocate 100, call.allocate 50, call.release 0])
      (reachable_state_after _)⟩

/-- C7 (`allocate(size)` returns the failure value whenever the stack is empty or the area
at its top is shorter than `size`, whatever else is free) is what `malloc_` does on the run
of the specification: after `allocate(100) = 0`, `allocate(50) = 100`, `release(0)` the
top of the stack points at the free area `(0, 100)`, the free area `(150, 850)` is in the
Ledger, and `allocate(200)` returns -1.  The code does not do it in every reachable state:
after the seven returning calls of `exhausted_calls` the only entry of the stack points at
the area `(300, 700)`, which is shorter than 800, and `malloc_(800)` stops at the assertion
of line 83 instead of returning -1. -/
theorem C7_abort_instead_of_failure :
    observe (run init
        [call.allocate 100, call.allocate 50, call.release 0, call.allocate 200]) =
        .ok ([0, 100, 0, -1],
          [⟨1, ⟨0, 100, mem_state_t.free⟩⟩, ⟨3, ⟨100, 50, mem_state_t.busy⟩⟩,
            ⟨4, ⟨150, 850, mem_state_t.free⟩⟩], [], [1, 4]) ∧
      Reachable (state_after exhausted_calls) ∧
      (state_after exhausted_calls).last_freed_mem_areas = [6] ∧
      deref (state_after exhausted_calls).mem_areas
          (state_after exhausted_calls).invalid_mem_areas 6 =
        some ⟨6, ⟨300, 700, mem_state_t.invalid⟩⟩ ∧
      malloc_ (state_after exhausted_calls) 800 = .error (fault.assertion 83) ∧
      ¬ ∃ s1, malloc_ (state_after exhausted_calls) 800 = .ok (-1, s1) := by
  have h : malloc_ (state_after exhausted_calls) 800 = .error (fault.assertion 83) := by rfl
  refine ⟨by decide, reachable_state_after _, by decide, by decide, h, ?_⟩
  rintro ⟨s1, h1⟩
  rw [h] at h1
  cases h1

/-- C8: in a reachable state, when `malloc_(a_size)` with a positive size returns an
address (a value other than -1), `free_` of that address returns 0, and `malloc_(a_size)`
right after it returns the same address again. -/
theorem C8_immediate_reuse (s : allocator_state) (hr : Reachable s) (a_size : Nat)
    (hpos : 0 < a_size) (a : Int) (s1 : allocator_state)
    (hm : malloc_ s a_size = .ok (a, s1)) (hgranted : a ≠ -1) :
    ∃ s2 s3, free_ s1 a = .ok (0, s2) ∧ malloc_ s2 a_size = .ok (a, s3) := by
  have hinv := reachable_inv hr
  have hinv1 := malloc_inv hinv hm
  rcases malloc_cases hm (fun m hm => hinv.ids_fresh m (List.mem_append_left _ hm)) with
    ⟨h, -⟩ | ⟨top, rest, pre, F, post, hstack, hl, hFi, -, hlen, -, haddr, hcell, ha, hs1⟩
  · exact absurd h hgranted
  have hFfree : F.val.state = mem_state_t.free :=
    stack_entry_free hinv (by rw [hstack]; simp) (by rw [hl]; simp) hFi
  have hadj := hinv.no_adj
  rw [hl, no_adjacent_free, List.chain'_append] at hadj
  obtain ⟨-, -, hadj3⟩ := hadj
  rw [to_int_small haddr] at ha
  subst ha
  subst hs1
  obtain ⟨preL, Lr, Rr, postR, stack1, g1, hpre, -, hL, -, -, hfree, hinv2⟩ :=
    free_ok hinv1 (B := ⟨s.fresh, ⟨F.val.start, a_size, mem_state_t.busy⟩⟩) rfl rfl
  have hLr : Lr = [] := by
    rcases hL with ⟨h, -⟩ | ⟨pv, rfl, hpv⟩
    · exact h
    · exfalso
      have := hadj3 pv (by rw [hpre]; simp) F (by simp)
      exact this ⟨hpv, hFfree⟩
  subst hLr
  obtain ⟨s3, hm2⟩ := @malloc_ok _ hinv2 _ _
    (merged_area [] ⟨s.fresh, ⟨F.val.start, a_size, mem_state_t.busy⟩⟩ Rr)
    a_size rfl (by simp) rfl (by simp [merged_area]) (by simp [merged_area]; omega)
    (by simp [merged_area])
  refine ⟨_, s3, hfree, ?_⟩
  rw [hm2]
  simp [merged_area]

/-- C8 on the run of the specification: from the initial state `allocate(100)` returns 0,
`release(0)` returns 0 and `allocate(100)` returns 0 again. -/
theorem C8_immediate_reuse_witness :
    Reachable init ∧ 0 < 100 ∧
      malloc_ init 100 = .ok (0, state_after [call.allocate 100]) ∧
      ∃ s2 s3, free_ (state_after [call.allocate 100]) 0 = .ok (0, s2) ∧
        malloc_ s2 100 = .ok (0, s3) :=
  ⟨Reachable.init, by decide, rfl,
    C8_immediate_reuse init Reachable.init 100 (by decide) 0
      (state_after [call.allocate 100]) rfl (by decide)⟩

theorem free_unknown {s : allocator_state} {a_address : Int} (h0 : 0 ≤ a_address)
    (hcap : a_address.toNat < MEMORY_CAPACITY)
    (hcell : s.cells_to_mem_area_map a_address.toNat = none) :
    free_ s a_address = .ok (-1, s) := by
  have hneg : ¬ a_address < 0 := by omega
  simp only [free_, hneg, reduceIte, hcap, hcell]

/-- C9: in the initial state `free_` of every address in `[0, MEMORY_CAPACITY)` returns
-1; and in every state, when `free_(a_address)` has returned 0, `free_(a_address)` once
more returns -1. -/
theorem C9_release_unallocated_fails (s : allocator_state) (a_address : Int) :
    (0 ≤ a_address → a_address < Int.ofNat MEMORY_CAPACITY →
      free_ init a_address = .ok (-1, init)) ∧
    (∀ s1, free_ s a_address = .ok (0, s1) → free_ s1 a_address = .ok (-1, s1)) := by
  constructor
  · intro h0 hcap
    have hlt : a_address.toNat < MEMORY_CAPACITY := by
      have : Int.ofNat a_address.toNat = a_address := Int.toNat_of_nonneg h0
      rw [← this] at hcap
      exact Int.ofNat_lt.1 hcap
    exact free_unknown h0 hlt rfl
  · intro s1 h
    obtain ⟨h0, hcap, hcase⟩ := free_returns h
    rcases hcase with ⟨hr, -, -⟩ | ⟨-, -, hcells⟩
    · exact absurd hr (by decide)
    · exact free_unknown h0 hcap (by rw [hcells]; simp)

/-- C9 for the address 0: it is unknown in the initial state, and unknown again after
`allocate(100)` and `release(0)`. -/
theorem C9_release_unallocated_fails_witness :
    free_ init 0 = .ok (-1, init) ∧
      free_ (state_after [call.allocate 100]) 0 =
        .ok (0, state_after [call.allocate 100, call.release 0]) ∧
      free_ (state_after [call.allocate 100, call.release 0]) 0 =
        .ok (-1, state_after [call.allocate 100, call.release 0]) :=
  ⟨(C9_release_unallocated_fails init 0).1 (by decide) (by decide), rfl,
    (C9_release_unallocated_fails (state_after [call.allocate 100]) 0).2
      (state_after [call.allocate 100, call.release 0]) rfl⟩

/-- C10: in a reachable state, a `malloc_` or a `free_` that returns -1 leaves the Ledger,
the Address Index, the Recency Stack and the Graveyard (the whole state) as they were. -/
theorem C10_failure_is_atomic (s : allocator_state) (hr : Reachable s) :
    (∀ a_size s1, malloc_ s a_size = .ok (-1, s1) → s1 = s) ∧
    (∀ a_address s1, free_ s a_address = .ok (-1, s1) → s1 = s) := by
  have hinv := reachable_inv hr
  constructor
  · intro a_size s1 hm
    rcases malloc_cases hm (fun m hm => hinv.ids_fresh m (List.mem_append_left _ hm)) with
      ⟨-, h⟩ | ⟨top, rest, pre, F, post, -, -, -, -, -, -, haddr, -, ha, -⟩
    · exact h
    · rw [to_int_small haddr] at ha
      exact absurd ha (by
        intro h
        have : (0 : Int) ≤ Int.ofNat F.val.start := Int.ofNat_nonneg _
        omega)
  · intro a_address s1 hf
    obtain ⟨-, -, hcase⟩ := free_returns hf
    rcases hcase with ⟨-, h, -⟩ | ⟨h, -, -⟩
    · exact h
    · exact absurd h (by decide)

/-- C10 at the state after `allocate(100)`, `allocate(50)`, `release(0)`: `allocate(200)`
and `release(7)` return -1 there, and end in the state they started in. -/
theorem C10_failure_is_atomic_witness :
    Reachable (state_after [call.allocate 100, call.allocate 50, call.release 0]) ∧
      malloc_ (state_after [call.allocate 100, call.allocate 50, call.release 0]) 200 =
        .ok (-1,
          state_after [call.allocate 100, call.allocate 50, call.release 0,
            call.allocate 200]) ∧
      free_ (state_after [call.allocate 100, call.allocate 50, call.release 0]) 7 =
        .ok (-1,
          state_after [call.allocate 100, call.allocate 50, call.release 0,
            call.release 7]) ∧
      state_after [call.allocate 100, call.allocate 50, call.release 0, call.allocate 200] =
        state_after [call.allocate 100, call.allocate 50, call.release 0] ∧
      state_after [call.allocate 100, call.allocate 50, call.release 0, call.release 7] =
        state_after [call.allocate 100, call.allocate 50, call.release 0] :=
  ⟨reachable_state_after _, rfl, rfl,
    (C10_failure_is_atomic (state_after [call.allocate 100, call.allocate 50, call.release 0])
      (reachable_state_after _)).1 200 _ rfl,
    (C10_failure_is_atomic (state_after [call.allocate 100, call.allocate 50, call.release 0])
      (reachable_state_after _)).2 7 _ rfl⟩

/-! ## Further consequences of the invariant -/

/-- A `free_` that returns 0, written out on the area list split at the released area. -/
theorem free_success {s s1 : allocator_state} {a_address : Int} (hinv : Inv s)
    (h : free_ s a_address = .ok (0, s1)) :
    ∃ pre B post preL Lr Rr postR stack1 g1,
      s.mem_areas = pre ++ B :: post ∧ B.val.state = mem_state_t.busy ∧
      Int.ofNat B.val.start = a_address ∧ pre = preL ++ Lr ∧ post = Rr ++ postR ∧
      ((Lr = [] ∧ ∀ x ∈ preL.getLast?, x.val.state ≠ mem_state_t.free) ∨
        ∃ pv, Lr = [pv] ∧ pv.val.state = mem_state_t.free) ∧
      ((Rr = [] ∧ ∀ y ∈ postR.head?, y.val.state ≠ mem_state_t.free) ∨
        ∃ nx, Rr = [nx] ∧ nx.val.state = mem_state_t.free) ∧
      prune_stack (preL ++ merged_area Lr B Rr :: postR) s.last_freed_mem_areas
          (s.invalid_mem_areas ++ Rr.map invalidated ++ Lr.map invalidated) =
        .ok (stack1, g1) ∧
      s1 =
        { mem_areas := preL ++ merged_area Lr B Rr :: postR
          invalid_mem_areas := g1
          last_freed_mem_areas := B.iter :: stack1
          cells_to_mem_area_map := fun a =>
            if a = B.val.start then none else s.cells_to_mem_area_map a
          fresh := s.fresh } := by
  obtain ⟨hnn, -, hcase⟩ := free_returns h
  rcases hcase with ⟨h0, -, -⟩ | ⟨-, ⟨it, hcell⟩, -⟩
  · exact absurd h0 (by decide)
  · obtain ⟨-, B, hBin, -, hBb, hBs⟩ := hinv.index_sound _ _ hcell
    obtain ⟨pre, post, hl⟩ := List.append_of_mem hBin
    obtain ⟨preL, Lr, Rr, postR, stack1, g1, hpre, hpost, hL, hR, hprune, hfree, -⟩ :=
      free_ok hinv hl hBb
    have e : Int.ofNat B.val.start = a_address := by
      rw [hBs]
      exact Int.toNat_of_nonneg hnn
    rw [e, h] at hfree
    simp only [Except.ok.injEq, Prod.mk.injEq, true_and] at hfree
    exact ⟨pre, B, post, preL, Lr, Rr, postR, stack1, g1, hl, hBb, e, hpre, hpost, hL, hR,
      hprune, hfree⟩

/-- C11: a `malloc_(a_size)` that returns an address in a reachable state returns the
start of the area `F` the top of the stack points at.  In the Ledger `F` is replaced, in
its place, by a busy area `(F.start, a_size)`, followed, only when `F` is longer than
`a_size`, by a free area `(F.start + a_size, F.length - a_size)` whose iterator is the new
top of the stack; on an exact fit nothing is inserted after the busy area and nothing is
pushed.  The slot of the returned address points at the new busy area; the other slots and
the Graveyard are as before. -/
theorem C11_allocate_postcondition (s : allocator_state) (hr : Reachable s) (a_size : Nat)
    (a : Int) (s1 : allocator_state) (hm : malloc_ s a_size = .ok (a, s1))
    (hgranted : a ≠ -1) :
    ∃ top rest pre F post busy_it,
      s.last_freed_mem_areas = top :: rest ∧ s.mem_areas = pre ++ F :: post ∧
      F.iter = top ∧ F.val.state = mem_state_t.free ∧ a_size ≤ F.val.length ∧
      a = Int.ofNat F.val.start ∧ busy_it ∉ ids (s.mem_areas ++ s.invalid_mem_areas) ∧
      (F.val.length > a_size →
        ∃ free_it, free_it ∉ ids (s.mem_areas ++ s.invalid_mem_areas) ∧ free_it ≠ busy_it ∧
          s1.mem_areas =
            pre ++ ⟨busy_it, ⟨F.val.start, a_size, mem_state_t.busy⟩⟩ ::
              ⟨free_it, ⟨F.val.start + a_size, F.val.length - a_size, mem_state_t.free⟩⟩ ::
              post ∧
          s1.last_freed_mem_areas = free_it :: rest) ∧
      (F.val.length = a_size →
        s1.mem_areas = pre ++ ⟨busy_it, ⟨F.val.start, a_size, mem_state_t.busy⟩⟩ :: post ∧
          s1.last_freed_mem_areas = rest) ∧
      s1.cells_to_mem_area_map F.val.start = some busy_it ∧
      (∀ x, x ≠ F.val.start → s1.cells_to_mem_area_map x = s.cells_to_mem_area_map x) ∧
      s1.invalid_mem_areas = s.invalid_mem_areas := by
  have hinv := reachable_inv hr
  rcases malloc_cases hm (fun m hm => hinv.ids_fresh m (List.mem_append_left _ hm)) with
    ⟨h, -⟩ | ⟨top, rest, pre, F, post, hstack, hl, hFi, -, hlen, -, haddr, -, ha, hs1⟩
  · exact absurd h hgranted
  have hFin : F ∈ s.mem_areas := by rw [hl]; simp
  have hFfree : F.val.state = mem_state_t.free :=
    stack_entry_free hinv (by rw [hstack]; simp) hFin hFi
  have hpart := hinv.partition
  rw [hl] at hpart
  have hp2 := partition_skip hpart
  rw [partition_cons] at hp2
  have hle := partition_le hp2.2
  have hwrap : (F.val.start + a_size) % SIZE_MOD = F.val.start + a_size := by
    apply Nat.mod_eq_of_lt
    have : MEMORY_CAPACITY = 1000 := rfl
    have : SIZE_MOD = 18446744073709551616 := rfl
    omega
  have hnew : ∀ k, s.fresh ≤ k → k ∉ ids (s.mem_areas ++ s.invalid_mem_areas) := by
    intro k hk hmem
    obtain ⟨m, hm1, hm2⟩ := mem_ids_iff.1 hmem
    have := hinv.ids_fresh m hm1
    omega
  subst hs1
  refine ⟨top, rest, pre, F, post, s.fresh, hstack, hl, hFi, hFfree, hlen,
    by rw [ha, to_int_small haddr], hnew _ (le_refl _), ?_, ?_, by simp, ?_, rfl⟩
  · intro hgt
    refine ⟨s.fresh + 1, hnew _ (by omega), by omega, ?_, ?_⟩
    · simp only [hgt, reduceIte, hwrap, List.cons_append, List.nil_append]
    · simp only [hgt, reduceIte]
  · intro heq
    have hgt : ¬ F.val.length > a_size := by omega
    refine ⟨?_, ?_⟩
    · simp only [hgt, reduceIte, List.nil_append]
    · simp only [hgt, reduceIte]
  · intro x hx
    simp only [hx, reduceIte]

/-- C11 on the first allocation: `allocate(100)` in the initial state returns 0, the start
of the area `(0, 1000)` at the top of the stack, and splits that area. -/
theorem C11_allocate_postcondition_witness :
    Reachable init ∧ malloc_ init 100 = .ok (0, state_after [call.allocate 100]) ∧
      ∃ top rest pre F post busy_it,
        init.last_freed_mem_areas = top :: rest ∧ init.mem_areas = pre ++ F :: post ∧
        F.iter = top ∧ F.val.state = mem_state_t.free ∧ 100 ≤ F.val.length ∧
        (0 : Int) = Int.ofNat F.val.start ∧
        busy_it ∉ ids (init.mem_areas ++ init.invalid_mem_areas) ∧
        (F.val.length > 100 →
          ∃ free_it, free_it ∉ ids (init.mem_areas ++ init.invalid_mem_areas) ∧
            free_it ≠ busy_it ∧
            (state_after [call.allocate 100]).mem_areas =
              pre ++ ⟨busy_it, ⟨F.val.start, 100, mem_state_t.busy⟩⟩ ::
                ⟨free_it, ⟨F.val.start + 100, F.val.length - 100, mem_state_t.free⟩⟩ ::
                post ∧
            (state_after [call.allocate 100]).last_freed_mem_areas = free_it :: rest) ∧
        (F.val.length = 100 →
          (state_after [call.allocate 100]).mem_areas =
              pre ++ ⟨busy_it, ⟨F.val.start, 100, mem_state_t.busy⟩⟩ :: post ∧
            (state_after [call.allocate 100]).last_freed_mem_areas = rest) ∧
        (state_after [call.allocate 100]).cells_to_mem_area_map F.val.start = some busy_it ∧
        (∀ x, x ≠ F.val.start →
          (state_after [call.allocate 100]).cells_to_mem_area_map x =
            init.cells_to_mem_area_map x) ∧
        (state_after [call.allocate 100]).invalid_mem_areas = init.invalid_mem_areas :=
  ⟨Reachable.init, rfl,
    C11_allocate_postcondition init Reachable.init 100 0 (state_after [call.allocate 100]) rfl
      (by decide)⟩

/-- C12 (the stack is empty exactly when no Ledger area is free, in every reachable
state) does not hold of the code, which asserts it at line 83: the seven calls of
`exhausted_calls` all return, and leave a stack with one entry, the iterator of the
absorbed area `(300, 700)` in the Graveyard, while the three areas of the Ledger are all
busy and `__free_space` returns 0. -/
theorem C12_stack_nonempty_without_free_space :
    Reachable (state_after exhausted_calls) ∧
      observe (run init exhausted_calls) =
        .ok ([0, 100, 200, 0, 0, 200, 0],
          [⟨9, ⟨0, 100, mem_state_t.busy⟩⟩, ⟨3, ⟨100, 100, mem_state_t.busy⟩⟩,
            ⟨7, ⟨200, 800, mem_state_t.busy⟩⟩],
          [⟨6, ⟨300, 700, mem_state_t.invalid⟩⟩], [6]) ∧
      (state_after exhausted_calls).last_freed_mem_areas ≠ [] ∧
      free_length (state_after exhausted_calls).mem_areas = 0 ∧
      __free_space (state_after exhausted_calls).mem_areas = .ok 0 ∧
      ¬ ((state_after exhausted_calls).last_freed_mem_areas = [] ↔
        free_length (state_after exhausted_calls).mem_areas = 0) := by
  refine ⟨reachable_state_after _, by decide, by decide, by decide, by decide, by decide⟩

theorem partition_chain {lo hi : Nat} {l : List list_node} (h : Partition lo l hi) :
    List.Chain' (fun a b : list_node => a.val.start + a.val.length = b.val.start) l ∧
      (∀ n ∈ l.head?, n.val.start = lo) ∧
      (∀ n ∈ l.getLast?, n.val.start + n.val.length = hi) := by
  induction l generalizing lo with
  | nil => simp
  | cons n l ih =>
    rw [partition_cons] at h
    obtain ⟨hn, hrest⟩ := h
    obtain ⟨h1, h2, h3⟩ := ih hrest
    refine ⟨?_, ?_, ?_⟩
    · rw [List.chain'_cons']
      exact ⟨fun y hy => by rw [h2 y hy, hn], h1⟩
    · intro m hm
      simp only [List.head?_cons, Option.mem_def, Option.some.injEq] at hm
      rw [← hm, hn]
    · cases l with
      | nil =>
        intro m hm
        simp only [List.getLast?_singleton, Option.mem_def, Option.some.injEq] at hm
        rw [partition_nil] at hrest
        rw [← hm, hn]
        exact hrest
      | cons k l2 =>
        intro m hm
        rw [List.getLast?_cons_cons] at hm
        exact h3 m hm

/-- C13: in every reachable state the Ledger is not empty, its first area starts at 0,
each area ends where the next one starts, and the last area ends at
`MEMORY_CAPACITY`. -/
theorem C13_ledger_partition (s : allocator_state) (hr : Reachable s) :
    s.mem_areas ≠ [] ∧ (∀ n ∈ s.mem_areas.head?, n.val.start = 0) ∧
      List.Chain' (fun a b : list_node => a.val.start + a.val.length = b.val.start)
        s.mem_areas ∧
      (∀ n ∈ s.mem_areas.getLast?, n.val.start + n.val.length = MEMORY_CAPACITY) := by
  have hp := (reachable_inv hr).partition
  obtain ⟨h1, h2, h3⟩ := partition_chain hp
  refine ⟨?_, h2, h1, h3⟩
  intro hnil
  rw [hnil, partition_nil] at hp
  exact absurd hp (by decide)

/-- C13 at the state after the calls of `stale_top_calls`, whose Ledger has five
areas. -/
theorem C13_ledger_partition_witness :
    Reachable (state_after stale_top_calls) ∧
      (state_after stale_top_calls).mem_areas.length = 5 ∧
      (state_after stale_top_calls).mem_areas ≠ [] ∧
      (∀ n ∈ (state_after stale_top_calls).mem_areas.head?, n.val.start = 0) ∧
      List.Chain' (fun a b : list_node => a.val.start + a.val.length = b.val.start)
        (state_after stale_top_calls).mem_areas ∧
      (∀ n ∈ (state_after stale_top_calls).mem_areas.getLast?,
        n.val.start + n.val.length = MEMORY_CAPACITY) :=
  ⟨reachable_state_after _, by decide,
    C13_ledger_partition (state_after stale_top_calls) (reachable_state_after _)⟩

theorem list_erase_eq_filter {g : List list_node} (top : Nat) (hnd : (ids g).Nodup) :
    list_erase top g = g.filter (fun n => decide (n.iter ≠ top)) := by
  induction g with
  | nil => rfl
  | cons n g ih =>
    simp only [ids_cons, List.nodup_cons] at hnd
    by_cases hn : n.iter = top
    · have hall : ∀ m ∈ g, decide (m.iter ≠ top) = true := by
        intro m hm
        have : m.iter ≠ top := fun h => hnd.1 (hn ▸ h ▸ mem_ids_of_mem hm)
        simpa using this
      simp only [list_erase, hn, reduceIte, List.filter_cons, ne_eq, not_true_eq_false,
        decide_False, Bool.false_eq_true]
      exact (List.filter_eq_self.2 hall).symm
    · simp only [list_erase, hn, reduceIte, List.filter_cons, ne_eq, not_false_eq_true,
        decide_True]
      rw [ih hnd.2]

/-- Popping a stale top: the area it points at is in the list of invalid areas, and after
erasing it there the rest of the stack still fits. -/
theorem stack_ok_pop {areas g : List list_node} {top : Nat} {rest : List Nat}
    (hok : StackOK areas g (top :: rest)) (hg : top ∈ ids g) :
    ∃ m, list_find top areas = none ∧ list_find top g = some m ∧
      m.val.state = mem_state_t.invalid ∧ StackOK areas (list_erase top g) rest := by
  obtain ⟨m, hmg, hmi⟩ := mem_ids_iff.1 hg
  obtain ⟨pre, post, hgl⟩ := List.append_of_mem hmg
  have hnd := hok.ids_nodup
  rw [hgl] at hnd
  obtain ⟨h1, h2, h3, h4⟩ := nodup_split_right hnd
  rw [hmi] at h1 h2 h3
  have hsn := hok.stack_nodup
  rw [List.nodup_cons] at hsn
  have he : list_erase top g = pre ++ post := by
    rw [hgl]; exact list_erase_append top pre post m hmi h2
  refine ⟨m, list_find_none.2 h1, by rw [hgl]; exact list_find_append top pre post m hmi h2,
    hok.dead m hmg, ?_⟩
  rw [he]
  refine ⟨h4, hok.live, ?_, hsn.2, ?_, ?_⟩
  · intro x hx
    apply hok.dead x
    rw [hgl]
    simp only [List.mem_append, List.mem_cons] at hx ⊢
    tauto
  · intro it hit
    rcases hok.stack_sound it (List.mem_cons_of_mem _ hit) with hA | hB
    · exact Or.inl hA
    · right
      rw [hgl] at hB
      simp only [ids_append, ids_cons, List.mem_append, List.mem_cons] at hB ⊢
      rcases hB with hB | hB | hB
      · exact Or.inl hB
      · rw [hmi] at hB; subst hB; exact absurd hit hsn.1
      · exact Or.inr hB
  · intro x hx
    have hx2 : x ∈ g := by
      rw [hgl]
      simp only [List.mem_append, List.mem_cons] at hx ⊢
      tauto
    have := hok.stack_dead x hx2
    rw [List.mem_cons] at this
    rcases this with h | h
    · exfalso
      simp only [List.mem_append] at hx
      rcases hx with hx | hx
      · exact h2 (h ▸ mem_ids_of_mem hx)
      · exact h3 (h ▸ mem_ids_of_mem hx)
    · exact h

/-- The loop of lines 151-156 pops the longest run of iterators at the top of the stack
that point at invalid areas, erases exactly those areas, and stops at the first iterator
that points at a free area of the area list. -/
theorem prune_stack_spec (areas : List list_node) :
    ∀ (stack : List Nat) (g : List list_node), StackOK areas g stack →
      ∃ popped kept, stack = popped ++ kept ∧
        prune_stack areas stack g =
          .ok (kept, g.filter (fun n => decide (n.iter ∉ popped))) ∧
        (∀ p ∈ popped, p ∈ ids g) ∧
        (∀ t ∈ kept.head?, ∃ n ∈ areas, n.iter = t ∧ n.val.state = mem_state_t.free) := by
  intro stack
  induction stack with
  | nil =>
    intro g _
    exact ⟨[], [], rfl, by simp [prune_stack], by simp, by simp⟩
  | cons top rest ih =>
    intro g hok
    rcases hok.stack_sound top (List.mem_cons_self _ _) with ⟨n, hn, hni, hnf⟩ | hg
    · have hfind : ∃ m, list_find top areas = some m := by
        cases hf : list_find top areas with
        | some m => exact ⟨m, rfl⟩
        | none => exact absurd (hni ▸ mem_ids_of_mem hn) (list_find_none.1 hf)
      obtain ⟨m, hm⟩ := hfind
      obtain ⟨pre, post, hl, -, -⟩ := list_find_some hm
      have hmlive : m.val.state ≠ mem_state_t.invalid := hok.live m (by rw [hl]; simp)
      refine ⟨[], top :: rest, rfl, ?_, by simp, ?_⟩
      · simp [prune_stack, deref, hm, hmlive]
      · intro t ht
        simp only [List.head?_cons, Option.mem_def, Option.some.injEq] at ht
        subst ht
        exact ⟨n, hn, hni, hnf⟩
    · obtain ⟨m, hfa, hfg, hminv, hok2⟩ := stack_ok_pop hok hg
      obtain ⟨popped, kept, hsplit, hp, hpop, hhead⟩ := ih (list_erase top g) hok2
      have hndg : (ids g).Nodup := by
        have := hok.ids_nodup
        rw [ids_append] at this
        exact (List.nodup_append.1 this).2.1
      refine ⟨top :: popped, kept, by rw [hsplit]; rfl, ?_, ?_, hhead⟩
      · simp only [prune_stack, deref, hfa, hfg, hminv, reduceIte, hp]
        rw [list_erase_eq_filter top hndg, List.filter_filter]
        congr 2
        apply List.filter_congr
        intro x _
        simp only [List.mem_cons, not_or, ne_eq, Bool.decide_and, Bool.and_comm]
      · intro p hp2
        rcases List.mem_cons.1 hp2 with rfl | h
        · exact hg
        · have := hpop p h
          rw [list_erase_eq_filter top hndg] at this
          obtain ⟨x, hx, hxi⟩ := mem_ids_iff.1 this
          exact hxi ▸ mem_ids_of_mem (List.mem_filter.1 hx).1

theorem take_drop_while_split {α : Type} (p : α → Bool) (popped kept : List α)
    (h1 : ∀ x ∈ popped, p x = true) (h2 : ∀ t ∈ kept.head?, p t = false) :
    (popped ++ kept).takeWhile p = popped ∧ (popped ++ kept).dropWhile p = kept := by
  induction popped with
  | nil =>
    cases kept with
    | nil => simp
    | cons t k =>
      have := h2 t rfl
      simp [List.takeWhile_cons, List.dropWhile_cons, this]
  | cons x popped ih =>
    have hx := h1 x (List.mem_cons_self _ _)
    obtain ⟨i1, i2⟩ := ih (fun y hy => h1 y (List.mem_cons_of_mem _ hy))
    simp [List.takeWhile_cons, List.dropWhile_cons, hx, i1, i2]

/-- The state a `free_` that returns 0 leaves, in full: the Ledger with the released area
`B` merged with its free neighbours `Lr` and `Rr`; the stack without the longest run of
iterators at its top that point into the Graveyard as the merges left it, and with the
iterator of `B` pushed; that Graveyard without the areas the popped iterators point at; the
index with the slot of the address emptied. -/
theorem free_post {s s1 : allocator_state} {a_address : Int} (hinv : Inv s)
    (hf : free_ s a_address = .ok (0, s1)) :
    ∃ preL Lr B Rr postR,
      s.mem_areas = preL ++ Lr ++ B :: (Rr ++ postR) ∧
      B.val.state = mem_state_t.busy ∧ Int.ofNat B.val.start = a_address ∧
      ((Lr = [] ∧ ∀ x ∈ preL.getLast?, x.val.state ≠ mem_state_t.free) ∨
        ∃ pv, Lr = [pv] ∧ pv.val.state = mem_state_t.free) ∧
      ((Rr = [] ∧ ∀ y ∈ postR.head?, y.val.state ≠ mem_state_t.free) ∨
        ∃ nx, Rr = [nx] ∧ nx.val.state = mem_state_t.free) ∧
      StackOK (preL ++ merged_area Lr B Rr :: postR)
        (s.invalid_mem_areas ++ Rr.map invalidated ++ Lr.map invalidated)
        s.last_freed_mem_areas ∧
      s1 =
        { mem_areas := preL ++ merged_area Lr B Rr :: postR
          invalid_mem_areas :=
            (s.invalid_mem_areas ++ Rr.map invalidated ++ Lr.map invalidated).filter
              (fun n => decide (n.iter ∉ s.last_freed_mem_areas.takeWhile (fun it =>
                decide (it ∈ ids
                  (s.invalid_mem_areas ++ Rr.map invalidated ++ Lr.map invalidated)))))
          last_freed_mem_areas :=
            B.iter :: s.last_freed_mem_areas.dropWhile (fun it =>
              decide (it ∈ ids
                (s.invalid_mem_areas ++ Rr.map invalidated ++ Lr.map invalidated)))
          cells_to_mem_area_map := fun a =>
            if a = B.val.start then none else s.cells_to_mem_area_map a
          fresh := s.fresh } := by
  obtain ⟨pre, B, post, preL, Lr, Rr, postR, stack1, g1, hl, hBb, ha, hpre, hpost, hL, hR,
    hprune, hs1⟩ := free_success hinv hf
  have hl2 : s.mem_areas = (preL ++ Lr) ++ B :: (Rr ++ postR) := by rw [hl, hpre, hpost]
  have hLf : ∀ x ∈ Lr, x.val.state = mem_state_t.free := by
    rcases hL with ⟨rfl, -⟩ | ⟨pv, rfl, hpv⟩
    · simp
    · simpa using hpv
  have hRf : ∀ x ∈ Rr, x.val.state = mem_state_t.free := by
    rcases hR with ⟨rfl, -⟩ | ⟨nx, rfl, hnx⟩
    · simp
    · simpa using hnx
  have hok := free_stack_ok hinv hl2 hBb hLf hRf
  obtain ⟨popped, kept, hsplit, hp, hpop, hhead⟩ := prune_stack_spec _ _ _ hok
  rw [hprune] at hp
  simp only [Except.ok.injEq, Prod.mk.injEq] at hp
  obtain ⟨hk, hg⟩ := hp
  have hnd := hok.ids_nodup
  rw [ids_append] at hnd
  have hdisj := (List.nodup_append.1 hnd).2.2
  obtain ⟨ht, hd⟩ := take_drop_while_split
    (fun it => decide (it ∈ ids
      (s.invalid_mem_areas ++ Rr.map invalidated ++ Lr.map invalidated))) popped kept
    (fun x hx => by simpa using hpop x hx)
    (fun t ht => by
      obtain ⟨n, hn, hni, -⟩ := hhead t ht
      have : t ∉ ids (s.invalid_mem_areas ++ Rr.map invalidated ++ Lr.map invalidated) :=
        fun hmem => hdisj (hni ▸ mem_ids_of_mem hn) hmem
      simpa using this)
  rw [← hsplit] at ht hd
  refine ⟨preL, Lr, B, Rr, postR, hl2, hBb, ha, hL, hR, hok, ?_⟩
  rw [hs1, ht, hd, hk, hg]

/-- C14 as stated (each absorbed region is in the Graveyard after the release) fails: after
`allocate(100)` the Ledger is the busy area `(0, 100)` and the free area `(100, 900)` with
the iterator 2, which is also the only entry of the stack; `release(0)` returns 0 and
absorbs that area, and the loop of lines 151-156 of the same call pops the iterator 2 and
erases the area from the Graveyard again: the Graveyard is empty after the call. -/
theorem C14_counterexample :
    (state_after [call.allocate 100]).mem_areas =
        [⟨1, ⟨0, 100, mem_state_t.busy⟩⟩, ⟨2, ⟨100, 900, mem_state_t.free⟩⟩] ∧
      (state_after [call.allocate 100]).last_freed_mem_areas = [2] ∧
      observe (run (state_after [call.allocate 100]) [call.release 0]) =
        .ok ([0], [⟨1, ⟨0, 1000, mem_state_t.free⟩⟩], [], [1]) ∧
      ¬ ∃ s1, free_ (state_after [call.allocate 100]) 0 = .ok (0, s1) ∧
        ∃ n ∈ s1.invalid_mem_areas, n.iter = 2 := by
  have h2 : observe (run (state_after [call.allocate 100]) [call.release 0]) =
      .ok ([0], [⟨1, ⟨0, 1000, mem_state_t.free⟩⟩], [], [1]) := by decide
  refine ⟨by decide, by decide, h2, ?_⟩
  rintro ⟨s1, hf, n, hn, -⟩
  have hrun : run (state_after [call.allocate 100]) [call.release 0] = .ok ([0], s1) := by
    simp only [run, step, hf]
  rw [observe_ok hrun] at h2
  simp only [Except.ok.injEq, Prod.mk.injEq] at h2
  rw [h2.2.2.1] at hn
  simp at hn

/-- C14, amended: a `free_` that returns 0 in a reachable state released a busy area `B`
that starts at the address.  `Rr` is the area right after `B` when that one is free (else
empty) and `Lr` the area right before `B` when that one is free (else empty).  In the
Ledger the areas `Lr`, `B`, `Rr` are replaced by the one area `M`: the node of `B`, now
free, as long as `B` and the absorbed areas together, starting where the absorbed
predecessor started (where `B` started when there is none); the areas before and after
are as they were.  The absorbed areas are marked invalid and appended to the Graveyard,
the successor first, which gives `g3`.  The Graveyard after the call is `g3` without the
areas that the iterators `popped`, the longest run at the top of the old stack that points
into `g3`, point at: an absorbed area is in no area of the Ledger; it is in the Graveyard
after the call, marked invalid, when its iterator is not in `popped`, and in neither list
when it is.  The slot of the address is empty, the other slots are as before. -/
theorem C14_release_postcondition (s : allocator_state) (hr : Reachable s)
    (a_address : Int) (s1 : allocator_state) (hf : free_ s a_address = .ok (0, s1)) :
    ∃ preL Lr B Rr postR M g3 popped,
      s.mem_areas = preL ++ Lr ++ B :: (Rr ++ postR) ∧
      B.val.state = mem_state_t.busy ∧ Int.ofNat B.val.start = a_address ∧
      ((Lr = [] ∧ ∀ x ∈ preL.getLast?, x.val.state ≠ mem_state_t.free) ∨
        ∃ pv, Lr = [pv] ∧ pv.val.state = mem_state_t.free) ∧
      ((Rr = [] ∧ ∀ y ∈ postR.head?, y.val.state ≠ mem_state_t.free) ∨
        ∃ nx, Rr = [nx] ∧ nx.val.state = mem_state_t.free) ∧
      s1.mem_areas = preL ++ M :: postR ∧
      M.iter = B.iter ∧ M.val.state = mem_state_t.free ∧
      M.val.length = B.val.length + total_length Rr + total_length Lr ∧
      (Lr = [] → M.val.start = B.val.start) ∧ (∀ pv ∈ Lr, M.val.start = pv.val.start) ∧
      g3 = s.invalid_mem_areas ++ Rr.map invalidated ++ Lr.map invalidated ∧
      popped = s.last_freed_mem_areas.takeWhile (fun it => decide (it ∈ ids g3)) ∧
      s1.invalid_mem_areas = g3.filter (fun n => decide (n.iter ∉ popped)) ∧
      (∀ x ∈ Rr ++ Lr,
        (∀ n ∈ s1.mem_areas, n.iter ≠ x.iter) ∧
        (x.iter ∉ popped →
          ⟨x.iter, ⟨x.val.start, x.val.length, mem_state_t.invalid⟩⟩ ∈
            s1.invalid_mem_areas) ∧
        (x.iter ∈ popped → ∀ n ∈ s1.invalid_mem_areas, n.iter ≠ x.iter)) ∧
      s1.cells_to_mem_area_map B.val.start = none ∧
      (∀ x, x ≠ B.val.start → s1.cells_to_mem_area_map x = s.cells_to_mem_area_map x) := by
  have hinv := reachable_inv hr
  obtain ⟨preL, Lr, B, Rr, postR, hl2, hBb, ha, hL, hR, hok, hs1⟩ := free_post hinv hf
  subst hs1
  have hpart := hinv.partition
  rw [hl2, List.append_assoc] at hpart
  have hp1 := partition_skip hpart
  have hnd := hok.ids_nodup
  rw [ids_append] at hnd
  have hdisj := (List.nodup_append.1 hnd).2.2
  refine ⟨preL, Lr, B, Rr, postR, merged_area Lr B Rr, _, _, hl2, hBb, ha, hL, hR, rfl, rfl,
    rfl, rfl, ?_, ?_, rfl, rfl, rfl, ?_, by simp, ?_⟩
  · rintro rfl
    simp [merged_area]
  · intro pv hpv
    rcases hL with ⟨rfl, -⟩ | ⟨pv2, rfl, -⟩
    · simp at hpv
    · simp only [List.mem_singleton] at hpv
      subst hpv
      simp only [List.singleton_append, partition_cons] at hp1
      obtain ⟨h1, h2, -⟩ := hp1
      simp only [merged_area, total_length_cons, total_length_nil]
      omega
  · intro x hx
    have hxg : invalidated x ∈
        s.invalid_mem_areas ++ Rr.map invalidated ++ Lr.map invalidated := by
      simp only [List.mem_append, List.mem_map] at hx ⊢
      rcases hx with hx | hx
      · exact Or.inl (Or.inr ⟨x, hx, rfl⟩)
      · exact Or.inr ⟨x, hx, rfl⟩
    refine ⟨fun n hn hni => ?_, fun hnot => ?_, fun hin n hn hni => ?_⟩
    · have hxi : x.iter ∈ ids
          (s.invalid_mem_areas ++ Rr.map invalidated ++ Lr.map invalidated) :=
        @mem_ids_of_mem (invalidated x) _ hxg
      exact hdisj (mem_ids_of_mem hn) (hni ▸ hxi)
    · exact List.mem_filter.2 ⟨hxg, by simpa [invalidated] using hnot⟩
    · have := (List.mem_filter.1 hn).2
      simp only [decide_eq_true_eq] at this
      exact this (hni ▸ hin)
  · intro x hx
    simp only [hx, reduceIte]

/-- C14 on `release(100)` in the state after the calls of `two_holes_calls`: the free
area at 0 is absorbed, marked invalid and appended to the Graveyard, where it stays because
the top of the stack points at the free area at 300; the busy area at 200 is not
touched. -/
theorem C14_release_postcondition_witness :
    Reachable (state_after two_holes_calls) ∧
      free_ (state_after two_holes_calls) 100 =
        .ok (0, state_after (two_holes_calls ++ [call.release 100])) ∧
      observe (run init two_holes_calls) =
        .ok ([0, 100, 200, 300, 400, 0, 0],
          [⟨1, ⟨0, 100, mem_state_t.free⟩⟩, ⟨3, ⟨100, 100, mem_state_t.busy⟩⟩,
            ⟨5, ⟨200, 100, mem_state_t.busy⟩⟩, ⟨7, ⟨300, 100, mem_state_t.free⟩⟩,
            ⟨9, ⟨400, 100, mem_state_t.busy⟩⟩, ⟨10, ⟨500, 500, mem_state_t.free⟩⟩],
          [], [7, 1, 10]) ∧
      observe (run init (two_holes_calls ++ [call.release 100])) =
        .ok ([0, 100, 200, 300, 400, 0, 0, 0],
          [⟨3, ⟨0, 200, mem_state_t.free⟩⟩, ⟨5, ⟨200, 100, mem_state_t.busy⟩⟩,
            ⟨7, ⟨300, 100, mem_state_t.free⟩⟩, ⟨9, ⟨400, 100, mem_state_t.busy⟩⟩,
            ⟨10, ⟨500, 500, mem_state_t.free⟩⟩],
          [⟨1, ⟨0, 100, mem_state_t.invalid⟩⟩], [3, 7, 1, 10]) ∧
      ∃ preL Lr B Rr postR M g3 popped,
        (state_after two_holes_calls).mem_areas = preL ++ Lr ++ B :: (Rr ++ postR) ∧
        B.val.state = mem_state_t.busy ∧ Int.ofNat B.val.start = 100 ∧
        (state_after (two_holes_calls ++ [call.release 100])).mem_areas =
          preL ++ M :: postR ∧
        M.val.length = B.val.length + total_length Rr + total_length Lr ∧
        g3 = (state_after two_holes_calls).invalid_mem_areas ++ Rr.map invalidated ++
          Lr.map invalidated ∧
        popped = (state_after two_holes_calls).last_freed_mem_areas.takeWhile
          (fun it => decide (it ∈ ids g3)) ∧
        (state_after (two_holes_calls ++ [call.release 100])).invalid_mem_areas =
          g3.filter (fun n => decide (n.iter ∉ popped)) := by
  refine ⟨reachable_state_after _, rfl, by decide, by decide, ?_⟩
  obtain ⟨preL, Lr, B, Rr, postR, M, g3, popped, h1, h2, h3, -, -, h6, -, -, h9, -, -, h12,
    h13, h14, -⟩ :=
    C14_release_postcondition (state_after two_holes_calls) (reachable_state_after _) 100
      (state_after (two_holes_calls ++ [call.release 100])) rfl
  exact ⟨preL, Lr, B, Rr, postR, M, g3, popped, h1, h2, h3, h6, h9, h12, h13, h14⟩

/-- C15: a `free_` that returns 0 in a reachable state released a busy area `B` that
starts at the address, with the free neighbours `Lr` and `Rr` absorbed; `g3` is the
Graveyard as the two merges leave it, the old one with the absorbed areas appended, and
all its areas are invalid, while no area of the Ledger is.  The old stack is
`popped ++ kept`, where `popped` is its longest run at the top of iterators that point
into `g3`: `kept` is empty or begins with an iterator that points at a free area of the
Ledger.  The loop of lines 151-156 pops `popped` and erases the areas it points at, and no
others, from `g3`; `kept` stays as it is, whatever its deeper iterators point at; the
iterator of `B` is pushed on it, and points at the merged free area of the Ledger. -/
theorem C15_lazy_pruning (s : allocator_state) (hr : Reachable s) (a_address : Int)
    (s1 : allocator_state) (hf : free_ s a_address = .ok (0, s1)) :
    ∃ preL Lr B Rr postR g3 popped kept,
      s.mem_areas = preL ++ Lr ++ B :: (Rr ++ postR) ∧
      B.val.state = mem_state_t.busy ∧ Int.ofNat B.val.start = a_address ∧
      ((Lr = [] ∧ ∀ x ∈ preL.getLast?, x.val.state ≠ mem_state_t.free) ∨
        ∃ pv, Lr = [pv] ∧ pv.val.state = mem_state_t.free) ∧
      ((Rr = [] ∧ ∀ y ∈ postR.head?, y.val.state ≠ mem_state_t.free) ∨
        ∃ nx, Rr = [nx] ∧ nx.val.state = mem_state_t.free) ∧
      g3 = s.invalid_mem_areas ++ Rr.map invalidated ++ Lr.map invalidated ∧
      popped = s.last_freed_mem_areas.takeWhile (fun it => decide (it ∈ ids g3)) ∧
      kept = s.last_freed_mem_areas.dropWhile (fun it => decide (it ∈ ids g3)) ∧
      s.last_freed_mem_areas = popped ++ kept ∧
      (∀ n ∈ g3, n.val.state = mem_state_t.invalid) ∧
      (∀ n ∈ s1.mem_areas, n.val.state ≠ mem_state_t.invalid) ∧
      (∀ p ∈ popped, ∃ n ∈ g3, n.iter = p ∧ n.val.state = mem_state_t.invalid) ∧
      (∀ t ∈ kept.head?, ∃ n ∈ s1.mem_areas, n.iter = t ∧ n.val.state = mem_state_t.free) ∧
      s1.mem_areas = preL ++ merged_area Lr B Rr :: postR ∧
      s1.last_freed_mem_areas = B.iter :: kept ∧
      s1.invalid_mem_areas = g3.filter (fun n => decide (n.iter ∉ popped)) ∧
      (∃ M ∈ s1.mem_areas, M.iter = B.iter ∧ M.val.state = mem_state_t.free) := by
  have hinv := reachable_inv hr
  obtain ⟨preL, Lr, B, Rr, postR, hl2, hBb, ha, hL, hR, hok, hs1⟩ := free_post hinv hf
  subst hs1
  refine ⟨preL, Lr, B, Rr, postR, _, _, _, hl2, hBb, ha, hL, hR, rfl, rfl, rfl,
    (List.takeWhile_append_dropWhile _ _).symm, hok.dead, hok.live, ?_, ?_, rfl, rfl, rfl,
    ⟨merged_area Lr B Rr, by simp, rfl, rfl⟩⟩
  · intro p hp
    have := List.mem_takeWhile_imp hp
    simp only [decide_eq_true_eq] at this
    obtain ⟨n, hn, hni⟩ := mem_ids_iff.1 this
    exact ⟨n, hn, hni, hok.dead n hn⟩
  · intro t ht
    have hnot := List.head?_dropWhile_not
      (fun it => decide (it ∈ ids
        (s.invalid_mem_areas ++ Rr.map invalidated ++ Lr.map invalidated)))
      s.last_freed_mem_areas
    have htm : t ∈ s.last_freed_mem_areas :=
      List.dropWhile_subset _ (List.mem_of_mem_head? ht)
    rw [Option.mem_def] at ht
    rw [ht] at hnot
    simp only [decide_eq_false_iff_not] at hnot
    rcases hok.stack_sound t htm with h | h
    · exact h
    · exact absurd h hnot

/-- C15 on two releases.  After `two_holes_calls` the stack is `[7, 1, 10]`;
`release(100)` absorbs the area 1, pops nothing because the top 7 points at a free area, and
leaves `[3, 7, 1, 10]` with the stale 1 buried and its area in the Graveyard.  Then
`release(200)` absorbs the areas 7 and 3, pops both and the stale 1 below them, erases all
three areas from the Graveyard, and stops at 10. -/
theorem C15_lazy_pruning_witness :
    Reachable (state_after two_holes_calls) ∧
      free_ (state_after two_holes_calls) 100 =
        .ok (0, state_after (two_holes_calls ++ [call.release 100])) ∧
      (state_after two_holes_calls).last_freed_mem_areas = [7, 1, 10] ∧
      (state_after (two_holes_calls ++ [call.release 100])).last_freed_mem_areas =
        [3, 7, 1, 10] ∧
      (state_after (two_holes_calls ++ [call.release 100])).invalid_mem_areas =
        [⟨1, ⟨0, 100, mem_state_t.invalid⟩⟩] ∧
      observe (run (state_after two_holes_calls) [call.release 100, call.release 200]) =
        .ok ([0, 0],
          [⟨5, ⟨0, 400, mem_state_t.free⟩⟩, ⟨9, ⟨400, 100, mem_state_t.busy⟩⟩,
            ⟨10, ⟨500, 500, mem_state_t.free⟩⟩], [], [5, 10]) ∧
      ∃ preL Lr B Rr postR g3 popped kept,
        (state_after two_holes_calls).mem_areas = preL ++ Lr ++ B :: (Rr ++ postR) ∧
        B.val.state = mem_state_t.busy ∧ Int.ofNat B.val.start = 100 ∧
        g3 = (state_after two_holes_calls).invalid_mem_areas ++ Rr.map invalidated ++
          Lr.map invalidated ∧
        popped = (state_after two_holes_calls).last_freed_mem_areas.takeWhile
          (fun it => decide (it ∈ ids g3)) ∧
        kept = (state_after two_holes_calls).last_freed_mem_areas.dropWhile
          (fun it => decide (it ∈ ids g3)) ∧
        (state_after (two_holes_calls ++ [call.release 100])).last_freed_mem_areas =
          B.iter :: kept ∧
        (state_after (two_holes_calls ++ [call.release 100])).invalid_mem_areas =
          g3.filter (fun n => decide (n.iter ∉ popped)) := by
  refine ⟨reachable_state_after _, rfl, by decide, by decide, by decide, by decide, ?_⟩
  obtain ⟨preL, Lr, B, Rr, postR, g3, popped, kept, h1, h2, h3, -, -, h6, h7, h8, -, -, -, -,
    -, -, h15, h16, -⟩ :=
    C15_lazy_pruning (state_after two_holes_calls) (reachable_state_after _) 100
      (state_after (two_holes_calls ++ [call.release 100])) rfl
  exact ⟨preL, Lr, B, Rr, postR, g3, popped, kept, h1, h2, h3, h6, h7, h8, h15, h16⟩

/-- C16: in every reachable state no area of the Ledger is invalid and every area of the
Graveyard is invalid. -/
theorem C16_invalid_only_in_graveyard (s : allocator_state) (hr : Reachable s) :
    (∀ n ∈ s.mem_areas, n.val.state ≠ mem_state_t.invalid) ∧
      (∀ n ∈ s.invalid_mem_areas, n.val.state = mem_state_t.invalid) :=
  ⟨(reachable_inv hr).live, (reachable_inv hr).dead⟩

/-- C16 at the state after the calls of `stale_top_calls`, which has one area in the
Graveyard. -/
theorem C16_invalid_only_in_graveyard_witness :
    Reachable (state_after stale_top_calls) ∧
      (state_after stale_top_calls).invalid_mem_areas =
        [⟨1, ⟨0, 100, mem_state_t.invalid⟩⟩] ∧
      (∀ n ∈ (state_after stale_top_calls).mem_areas, n.val.state ≠ mem_state_t.invalid) ∧
      (∀ n ∈ (state_after stale_top_calls).invalid_mem_areas,
        n.val.state = mem_state_t.invalid) :=
  ⟨reachable_state_after _, by decide,
    C16_invalid_only_in_graveyard (state_after stale_top_calls) (reachable_state_after _)⟩

/-- The faults `malloc_` can stop at in a state that satisfies the invariant: none of them
is the use of an iterator that points at no node. -/
theorem malloc_error_cases {s : allocator_state} (hinv : Inv s) {a_size : Nat} {e : fault}
    (h : malloc_ s a_size = .error e) :
    e = fault.assertion 83 ∨ e = fault.assertion 87 ∨ e = fault.assertion 106 ∨
      e = fault.undefined 106 := by
  unfold malloc_ at h
  simp only [inv_free_space hinv] at h
  by_cases hassert : (if s.last_freed_mem_areas.isEmpty then free_length s.mem_areas = 0
      else free_length s.mem_areas ≠ 0)
  case neg =>
    simp only [hassert, reduceIte, Except.error.injEq] at h
    exact Or.inl h.symm
  simp only [hassert, reduceIte] at h
  cases hstack : s.last_freed_mem_areas with
  | nil => simp [hstack] at h
  | cons top rest =>
    simp only [hstack] at h
    have hnd := hinv.ids_nodup
    rcases hinv.stack_sound top (by rw [hstack]; simp) with ⟨n, hn, hni, -⟩ | hg
    · have hfind : ∃ m, list_find top s.mem_areas = some m := by
        cases hf : list_find top s.mem_areas with
        | some m => exact ⟨m, rfl⟩
        | none => exact absurd (hni ▸ mem_ids_of_mem hn) (list_find_none.1 hf)
      obtain ⟨m, hm⟩ := hfind
      obtain ⟨pre, post, hl, -, -⟩ := list_find_some hm
      have hmlive : m.val.state ≠ mem_state_t.invalid := hinv.live m (by rw [hl]; simp)
      simp only [deref, hm, hmlive, reduceIte] at h
      split at h
      · split at h
        · split at h
          · simp only [Except.error.injEq] at h
            exact Or.inr (Or.inr (Or.inl h.symm))
          · simp at h
        · simp only [Except.error.injEq] at h
          exact Or.inr (Or.inr (Or.inr h.symm))
      · simp at h
    · obtain ⟨m, hmg, hmi⟩ := mem_ids_iff.1 hg
      obtain ⟨pre, post, hgl⟩ := List.append_of_mem hmg
      rw [hgl] at hnd
      obtain ⟨h1, h2, -, -⟩ := nodup_split_right hnd
      rw [hmi] at h1 h2
      have hfa : list_find top s.mem_areas = none := list_find_none.2 h1
      have hfg : list_find top s.invalid_mem_areas = some m := by
        rw [hgl]; exact list_find_append top pre post m hmi h2
      have hminv : m.val.state = mem_state_t.invalid := hinv.dead m hmg
      simp only [deref, hfa, hfg, hminv, reduceIte] at h
      split at h
      · simp only [Except.error.injEq] at h
        exact Or.inr (Or.inl h.symm)
      · simp at h

/-- The faults `free_` can stop at in a state that satisfies the invariant: a negative
address and an address beyond the vector. -/
theorem free_error_cases {s : allocator_state} (hinv : Inv s) {a_address : Int} {e : fault}
    (h : free_ s a_address = .error e) :
    e = fault.assertion 118 ∨ e = fault.undefined 120 := by
  by_cases hneg : a_address < 0
  · simp only [free_, hneg, reduceIte, Except.error.injEq] at h
    exact Or.inl h.symm
  by_cases hcap : a_address.toNat < MEMORY_CAPACITY
  case neg =>
    simp only [free_, hneg, hcap, reduceIte, Except.error.injEq] at h
    exact Or.inr h.symm
  exfalso
  cases hcell : s.cells_to_mem_area_map a_address.toNat with
  | none =>
    rw [free_unknown (by omega) hcap hcell] at h
    cases h
  | some it =>
    obtain ⟨-, B, hBin, -, hBb, hBs⟩ := hinv.index_sound _ _ hcell
    obtain ⟨pre, post, hl⟩ := List.append_of_mem hBin
    obtain ⟨preL, Lr, Rr, postR, stack1, g1, -, -, -, -, -, hfree, -⟩ := free_ok hinv hl hBb
    have e1 : Int.ofNat B.val.start = a_address := by
      rw [hBs]
      exact Int.toNat_of_nonneg (by omega)
    rw [e1, h] at hfree
    cases hfree

/-- C17: in every reachable state every iterator in the stack points at a free area of the
Ledger or at an invalid area of the Graveyard; the iterator of every free area of the
Ledger and of every area of the Graveyard is in the stack exactly once; and neither
`malloc_` nor `free_` ever uses an iterator that points at no node of the list it is used
with: the only undefined step `malloc_` can take is the vector subscript of line 106
and the only one `free_` can take is the vector subscript of line 120, so the `erase` of
line 103 finds its area in the Ledger and the `erase` of line 155 finds its area in the
Graveyard. -/
theorem C17_stack_entries_never_dangle (s : allocator_state) (hr : Reachable s) :
    (∀ it ∈ s.last_freed_mem_areas,
      (∃ n ∈ s.mem_areas, n.iter = it ∧ n.val.state = mem_state_t.free) ∨
        ∃ n ∈ s.invalid_mem_areas, n.iter = it ∧ n.val.state = mem_state_t.invalid) ∧
    (∀ n ∈ s.mem_areas, n.val.state = mem_state_t.free →
      s.last_freed_mem_areas.count n.iter = 1) ∧
    (∀ n ∈ s.invalid_mem_areas, s.last_freed_mem_areas.count n.iter = 1) ∧
    (∀ a_size line, malloc_ s a_size = .error (fault.undefined line) → line = 106) ∧
    (∀ a_address line, free_ s a_address = .error (fault.undefined line) → line = 120) := by
  have hinv := reachable_inv hr
  refine ⟨fun it hit => ?_, fun n hn hnf => ?_, fun n hn => ?_, fun a_size line h => ?_,
    fun a_address line h => ?_⟩
  · rcases hinv.stack_sound it hit with h | h
    · exact Or.inl h
    · obtain ⟨n, hn, hni⟩ := mem_ids_iff.1 h
      exact Or.inr ⟨n, hn, hni, hinv.dead n hn⟩
  · exact List.count_eq_one_of_mem hinv.stack_nodup (hinv.stack_free n hn hnf)
  · exact List.count_eq_one_of_mem hinv.stack_nodup (hinv.stack_dead n hn)
  · rcases malloc_error_cases hinv h with h1 | h1 | h1 | h1
    · cases h1
    · cases h1
    · cases h1
    · cases h1; rfl
  · rcases free_error_cases hinv h with h1 | h1
    · cases h1
    · cases h1; rfl

/-- C17 at the state after the calls of `stale_top_calls`, whose stack `[1, 10]` points at
the invalid area 1 of the Graveyard and at the free area 10 of the Ledger. -/
theorem C17_stack_entries_never_dangle_witness :
    Reachable (state_after stale_top_calls) ∧
      (state_after stale_top_calls).last_freed_mem_areas = [1, 10] ∧
      (∀ it ∈ (state_after stale_top_calls).last_freed_mem_areas,
        (∃ n ∈ (state_after stale_top_calls).mem_areas,
          n.iter = it ∧ n.val.state = mem_state_t.free) ∨
          ∃ n ∈ (state_after stale_top_calls).invalid_mem_areas,
            n.iter = it ∧ n.val.state = mem_state_t.invalid) :=
  ⟨reachable_state_after _, by decide,
    (C17_stack_entries_never_dangle (state_after stale_top_calls)
      (reachable_state_after _)).1⟩

/-! ## Live allocations -/

theorem reachable_of_live {s : allocator_state} {live : List (Int × Nat)}
    (h : ReachableLive s live) : Reachable s := by
  induction h with
  | init => exact Reachable.init
  | @call s s1 live c r _ hstep ih =>
    cases c with
    | allocate size => exact Reachable.malloc_ ih hstep
    | release address => exact Reachable.free_ ih hstep

theorem partition_bounds {lo hi : Nat} {l : List list_node} (h : Partition lo l hi) :
    ∀ K ∈ l, lo ≤ K.val.start ∧ K.val.start + K.val.length ≤ hi := by
  induction l generalizing lo with
  | nil => simp
  | cons n l ih =>
    rw [partition_cons] at h
    obtain ⟨hn, hrest⟩ := h
    have hle := partition_le hrest
    intro K hK
    rcases List.mem_cons.1 hK with rfl | hK
    · omega
    · have := ih hrest K hK
      omega

/-- Every live allocation is a busy area of the Ledger. -/
theorem live_busy {s : allocator_state} {live : List (Int × Nat)}
    (h : ReachableLive s live) :
    ∀ p ∈ live, ∃ n ∈ s.mem_areas, n.val.state = mem_state_t.busy ∧
      Int.ofNat n.val.start = p.1 ∧ n.val.length = p.2 := by
  induction h with
  | init => simp
  | @call s s1 live c r hprev hstep ih =>
    have hinv := reachable_inv (reachable_of_live hprev)
    cases c with
    | allocate size =>
      have hm : malloc_ s size = .ok (r, s1) := hstep
      rcases malloc_cases hm (fun m hm => hinv.ids_fresh m (List.mem_append_left _ hm)) with
        ⟨hr1, rfl⟩ | ⟨top, rest, pre, F, post, hstack, hl, hFi, -, -, -, haddr, -, ha, hs1⟩
      · simpa [track, hr1] using ih
      · have hFfree : F.val.state = mem_state_t.free :=
          stack_entry_free hinv (by rw [hstack]; simp) (by rw [hl]; simp) hFi
        rw [to_int_small haddr] at ha
        have hne : r ≠ -1 := by
          rw [ha]
          have : (0 : Int) ≤ Int.ofNat F.val.start := Int.ofNat_nonneg _
          omega
        subst hs1
        intro p hp
        simp only [track, hne, reduceIte, List.mem_cons] at hp
        rcases hp with rfl | hp
        · exact ⟨⟨s.fresh, ⟨F.val.start, size, mem_state_t.busy⟩⟩, by simp, rfl, ha.symm, rfl⟩
        · obtain ⟨n, hn, hnb, hns, hnl⟩ := ih p hp
          refine ⟨n, ?_, hnb, hns, hnl⟩
          rw [hl] at hn
          simp only [List.mem_append, List.mem_cons] at hn ⊢
          rcases hn with hn | rfl | hn
          · exact Or.inl hn
          · rw [hFfree] at hnb; cases hnb
          · exact Or.inr (Or.inr (Or.inr hn))
    | release address =>
      have hf : free_ s address = .ok (r, s1) := hstep
      obtain ⟨-, -, hcase⟩ := free_returns hf
      rcases hcase with ⟨hr1, rfl, -⟩ | ⟨hr0, -, -⟩
      · have : ¬ r = 0 := by rw [hr1]; decide
        simpa [track, this] using ih
      · subst hr0
        obtain ⟨pre, B, post, preL, Lr, Rr, postR, stack1, g1, hl, hBb, ha, hpre, hpost, hL,
          hR, -, hs1⟩ := free_success hinv hf
        subst hs1
        intro p hp
        simp only [track, reduceIte, List.mem_filter, decide_eq_true_eq] at hp
        obtain ⟨n, hn, hnb, hns, hnl⟩ := ih p hp.1
        refine ⟨n, ?_, hnb, hns, hnl⟩
        rw [hl, hpre, hpost] at hn
        simp only [List.mem_append, List.mem_cons] at hn ⊢
        rcases hn with (hn | hn) | rfl | hn | hn
        · exact Or.inl hn
        · exfalso
          rcases hL with ⟨rfl, -⟩ | ⟨pv, rfl, hpv⟩
          · simp at hn
          · simp only [List.mem_singleton] at hn
            rw [hn, hpv] at hnb; cases hnb
        · exact absurd (hns.symm.trans ha) hp.2
        · exfalso
          rcases hR with ⟨rfl, -⟩ | ⟨nx, rfl, hnx⟩
          · simp at hn
          · simp only [List.mem_singleton] at hn
            rw [hn, hnx] at hnb; cases hnb
        · exact Or.inr (Or.inr hn)

/-- C18: in a reachable state with the live allocations `live`, a `malloc_(a_size)` that
returns an address `a` returns one with `0 ≤ a` and `a + a_size ≤ MEMORY_CAPACITY`, and
no cell of `[a, a + a_size)` is a cell of a live allocation. -/
theorem C18_allocations_in_bounds_and_disjoint (s : allocator_state)
    (live : List (Int × Nat)) (hr : ReachableLive s live) (a_size : Nat) (a : Int)
    (s1 : allocator_state) (hm : malloc_ s a_size = .ok (a, s1)) (hgranted : a ≠ -1) :
    0 ≤ a ∧ a + Int.ofNat a_size ≤ Int.ofNat MEMORY_CAPACITY ∧
      ∀ p ∈ live, ∀ x : Int,
        ¬ ((a ≤ x ∧ x < a + Int.ofNat a_size) ∧ (p.1 ≤ x ∧ x < p.1 + Int.ofNat p.2)) := by
  have hinv := reachable_inv (reachable_of_live hr)
  rcases malloc_cases hm (fun m hm => hinv.ids_fresh m (List.mem_append_left _ hm)) with
    ⟨h, -⟩ | ⟨top, rest, pre, F, post, hstack, hl, hFi, -, hlen, -, haddr, -, ha, -⟩
  · exact absurd h hgranted
  have hFfree : F.val.state = mem_state_t.free :=
    stack_entry_free hinv (by rw [hstack]; simp) (by rw [hl]; simp) hFi
  rw [to_int_small haddr] at ha
  have hpart := hinv.partition
  rw [hl, partition_append] at hpart
  obtain ⟨mid, hp1, hp2⟩ := hpart
  rw [partition_cons] at hp2
  obtain ⟨hFs, hp3⟩ := hp2
  have hle := partition_le hp3
  have hcap : MEMORY_CAPACITY = 1000 := rfl
  subst ha
  refine ⟨Int.ofNat_nonneg _, ?_, ?_⟩
  · simp only [Int.ofNat_eq_coe]
    omega
  · intro p hp x hx
    obtain ⟨K, hK, hKb, hKs, hKl⟩ := live_busy hr p hp
    rw [← hKs, ← hKl] at hx
    rw [hl] at hK
    simp only [List.mem_append, List.mem_cons] at hK
    simp only [Int.ofNat_eq_coe] at hx
    rcases hK with hK | rfl | hK
    · have := (partition_bounds hp1 K hK).2
      omega
    · rw [hFfree] at hKb; cases hKb
    · have := (partition_bounds hp3 K hK).1
      omega

/-- C18 on the third allocation of a run: with the allocations `(100, 50)` and `(0, 100)`
live, `allocate(200)` returns 150. -/
theorem C18_allocations_in_bounds_and_disjoint_witness :
    ReachableLive (state_after [call.allocate 100, call.allocate 50]) [(100, 50), (0, 100)] ∧
      malloc_ (state_after [call.allocate 100, call.allocate 50]) 200 =
        .ok (150, state_after [call.allocate 100, call.allocate 50, call.allocate 200]) ∧
      (0 : Int) ≤ 150 ∧ (150 : Int) + Int.ofNat 200 ≤ Int.ofNat MEMORY_CAPACITY ∧
      ∀ p ∈ [((100 : Int), 50), ((0 : Int), 100)], ∀ x : Int,
        ¬ (((150 : Int) ≤ x ∧ x < 150 + Int.ofNat 200) ∧
          (p.1 ≤ x ∧ x < p.1 + Int.ofNat p.2)) :=
  ⟨ReachableLive.call (c := call.allocate 50) (r := 100)
      (ReachableLive.call (c := call.allocate 100) (r := 0) ReachableLive.init rfl) rfl,
    rfl,
    C18_allocations_in_bounds_and_disjoint (state_after [call.allocate 100, call.allocate 50])
      [(100, 50), (0, 100)]
      (ReachableLive.call (c := call.allocate 50) (r := 100)
        (ReachableLive.call (c := call.allocate 100) (r := 0) ReachableLive.init rfl) rfl)
      200 150 (state_after [call.allocate 100, call.allocate 50, call.allocate 200]) rfl
      (by decide)⟩

/-- C19: in a reachable state, when `malloc_(a_size)` returns an address, `free_` of that
address right after it returns 0 and leaves a Ledger with the same sequence of areas
(start, length, state) and an Address Index with the same slots as before the
`malloc_`. -/
theorem C19_allocate_release_restores (s : allocator_state) (hr : Reachable s)
    (a_size : Nat) (a : Int) (s1 : allocator_state)
    (hm : malloc_ s a_size = .ok (a, s1)) (hgranted : a ≠ -1) :
    ∃ s2, free_ s1 a = .ok (0, s2) ∧
      s2.mem_areas.map (fun n => n.val) = s.mem_areas.map (fun n => n.val) ∧
      s2.cells_to_mem_area_map = s.cells_to_mem_area_map := by
  have hinv := reachable_inv hr
  have hinv1 := malloc_inv hinv hm
  rcases malloc_cases hm (fun m hm => hinv.ids_fresh m (List.mem_append_left _ hm)) with
    ⟨h, -⟩ | ⟨top, rest, pre, F, post, hstack, hl, hFi, -, hlen, -, haddr, hcell, ha, hs1⟩
  · exact absurd h hgranted
  have hFfree : F.val.state = mem_state_t.free :=
    stack_entry_free hinv (by rw [hstack]; simp) (by rw [hl]; simp) hFi
  have hadj := hinv.no_adj
  rw [hl, no_adjacent_free, List.chain'_append, List.chain'_cons'] at hadj
  obtain ⟨-, ⟨hadj2, -⟩, hadj3⟩ := hadj
  have hpart := hinv.partition
  rw [hl] at hpart
  have hp2 := partition_skip hpart
  rw [partition_cons] at hp2
  have hle := partition_le hp2.2
  have hwrap : (F.val.start + a_size) % SIZE_MOD = F.val.start + a_size := by
    apply Nat.mod_eq_of_lt
    have : MEMORY_CAPACITY = 1000 := rfl
    have : SIZE_MOD = 18446744073709551616 := rfl
    omega
  rw [to_int_small haddr] at ha
  subst ha
  subst hs1
  obtain ⟨preL, Lr, Rr, postR, stack1, g1, hpre, hpost, hL, hR, -, hfree, -⟩ :=
    free_ok hinv1 (B := ⟨s.fresh, ⟨F.val.start, a_size, mem_state_t.busy⟩⟩) rfl rfl
  have hLr : Lr = [] := by
    rcases hL with ⟨h, -⟩ | ⟨pv, rfl, hpv⟩
    · exact h
    · exfalso
      have := hadj3 pv (by rw [hpre]; simp) F (by simp)
      exact this ⟨hpv, hFfree⟩
  subst hLr
  rw [List.append_nil] at hpre
  subst hpre
  have hFval : F.val = ⟨F.val.start, F.val.length, mem_state_t.free⟩ := by
    rw [← hFfree]
  refine ⟨_, hfree, ?_, ?_⟩
  · rw [hl]
    simp only [List.map_append, List.map_cons, List.append_cancel_left_eq]
    by_cases hgt : F.val.length > a_size
    · simp only [hgt, reduceIte, List.singleton_append] at hpost
      rcases hR with ⟨rfl, hy⟩ | ⟨nx, rfl, -⟩
      · exfalso
        rw [List.nil_append] at hpost
        rw [← hpost] at hy
        exact hy _ rfl rfl
      · simp only [List.singleton_append, List.cons.injEq] at hpost
        obtain ⟨hnx, hpR⟩ := hpost
        subst hnx
        subst hpR
        rw [hFval]
        simp only [merged_area, total_length_cons, total_length_nil, List.cons.injEq,
          mem_area_t.mk.injEq, and_true]
        omega
    · simp only [hgt, reduceIte, List.nil_append] at hpost
      rcases hR with ⟨rfl, -⟩ | ⟨nx, rfl, hnx⟩
      · rw [List.nil_append] at hpost
        subst hpost
        rw [hFval]
        simp only [merged_area, total_length_nil, List.cons.injEq, mem_area_t.mk.injEq,
          and_true]
        omega
      · exfalso
        have := hadj2 nx (by rw [hpost]; simp)
        exact this ⟨hFfree, hnx⟩
  · funext x
    by_cases hx : x = F.val.start
    · simp [hx, hcell]
    · simp [hx]

/-- C19 on the state after `allocate(100)`, `allocate(50)`, `release(0)`: `allocate(60)`
returns 0 and splits the free area `(0, 100)`; `release(0)` then restores the three areas
of the Ledger. -/
theorem C19_allocate_release_restores_witness :
    Reachable (state_after [call.allocate 100, call.allocate 50, call.release 0]) ∧
      malloc_ (state_after [call.allocate 100, call.allocate 50, call.release 0]) 60 =
        .ok (0,
          state_after [call.allocate 100, call.allocate 50, call.release 0,
            call.allocate 60]) ∧
      ∃ s2,
        free_
            (state_after [call.allocate 100, call.allocate 50, call.release 0,
              call.allocate 60]) 0 = .ok (0, s2) ∧
          s2.mem_areas.map (fun n => n.val) =
            [⟨0, 100, mem_state_t.free⟩, ⟨100, 50, mem_state_t.busy⟩,
              ⟨150, 850, mem_state_t.free⟩] ∧
          s2.cells_to_mem_area_map =
            (state_after [call.allocate 100, call.allocate 50,
              call.release 0]).cells_to_mem_area_map :=
  ⟨reachable_state_after _, rfl,
    C19_allocate_release_restores
      (state_after [call.allocate 100, call.allocate 50, call.release 0])
      (reachable_state_after _) 60 0
      (state_after [call.allocate 100, call.allocate 50, call.release 0, call.allocate 60])
      rfl (by decide)⟩

/-! ## The state after everything has been released -/

/-- A stale iterator can be the top of the stack only while some area is busy: `malloc_`
leaves a busy area, and `free_` leaves the iterator of the released area as the top. -/
theorem reachable_busy_or_top_live {s : allocator_state} (h : Reachable s) :
    busy_or_top_live s := by
  induction h with
  | init => exact Or.inr ⟨0, [], ⟨0, ⟨0, MEMORY_CAPACITY, mem_state_t.free⟩⟩, rfl, by simp [init], rfl⟩
  | @malloc_ s s1 a_size r hprev hm ih =>
    have hinv := reachable_inv hprev
    rcases malloc_cases hm (fun m hm => hinv.ids_fresh m (List.mem_append_left _ hm)) with
      ⟨-, rfl⟩ | ⟨top, rest, pre, F, post, -, -, -, -, -, -, -, -, -, rfl⟩
    · exact ih
    · exact Or.inl ⟨⟨s.fresh, ⟨F.val.start, a_size, mem_state_t.busy⟩⟩, by simp, rfl⟩
  | @free_ s s1 a_address r hprev hf ih =>
    have hinv := reachable_inv hprev
    obtain ⟨-, -, hcase⟩ := free_returns hf
    rcases hcase with ⟨-, rfl, -⟩ | ⟨hr0, -, -⟩
    · exact ih
    · subst hr0
      obtain ⟨pre, B, post, preL, Lr, Rr, postR, stack1, g1, -, -, -, -, -, -, -, -, rfl⟩ :=
        free_success hinv hf
      exact Or.inr ⟨B.iter, stack1, merged_area Lr B Rr, rfl, by simp, rfl⟩

/-- C20: in a reachable state in which no slot of the Address Index is filled, the Ledger
is the one free area `(0, MEMORY_CAPACITY)`, and `malloc_(MEMORY_CAPACITY)` returns 0. -/
theorem C20_full_recovery (s : allocator_state) (hr : Reachable s)
    (hempty : ∀ a, a < MEMORY_CAPACITY → s.cells_to_mem_area_map a = none) :
    s.mem_areas.map (fun n => n.val) = [⟨0, MEMORY_CAPACITY, mem_state_t.free⟩] ∧
      ∃ s1, malloc_ s MEMORY_CAPACITY = .ok (0, s1) := by
  have hinv := reachable_inv hr
  have hnobusy : ∀ n ∈ s.mem_areas, n.val.state ≠ mem_state_t.busy := by
    intro n hn hnb
    have h1 := hinv.index_complete n hn hnb
    have h2 := (hinv.index_sound _ _ h1).1
    rw [hempty _ h2] at h1
    cases h1
  have hfree : ∀ n ∈ s.mem_areas, n.val.state = mem_state_t.free := by
    intro n hn
    have h1 := hnobusy n hn
    have h2 := hinv.live n hn
    cases hst : n.val.state with
    | busy => exact absurd hst h1
    | free => rfl
    | invalid => exact absurd hst h2
  have hpart := hinv.partition
  have hadj := hinv.no_adj
  cases hl : s.mem_areas with
  | nil =>
    rw [hl, partition_nil] at hpart
    exact absurd hpart (by decide)
  | cons F l =>
    cases l with
    | cons G l2 =>
      exfalso
      rw [hl, no_adjacent_free, List.chain'_cons] at hadj
      exact hadj.1 ⟨hfree F (by rw [hl]; simp), hfree G (by rw [hl]; simp)⟩
    | nil =>
      rw [hl] at hpart
      simp only [partition_cons, partition_nil] at hpart
      obtain ⟨hFs, hFl⟩ := hpart
      have hFf := hfree F (by rw [hl]; simp)
      have hFlen : F.val.length = MEMORY_CAPACITY := by omega
      have hFval : F.val = ⟨0, MEMORY_CAPACITY, mem_state_t.free⟩ := by
        rw [← hFs, ← hFlen, ← hFf]
      refine ⟨by simp [hFval], ?_⟩
      rcases reachable_busy_or_top_live hr with ⟨n, hn, hnb⟩ | ⟨top, rest, n, hstack, hn, hni⟩
      · exact absurd hnb (hnobusy n hn)
      · have hnF : n = F := by
          rw [hl] at hn
          simpa using hn
        subst hnF
        obtain ⟨s1, hm⟩ := @malloc_ok s hinv top rest n MEMORY_CAPACITY hstack
          (by rw [hl]; simp) hni (by omega) (by rw [hFlen]; decide)
          (by rw [hFs]; exact hempty 0 (by decide))
        rw [hFs] at hm
        exact ⟨s1, hm⟩

/-- C20 at the state after two allocations and the release of both: the Ledger is the one
free area again and `allocate(1000)` returns 0. -/
theorem C20_full_recovery_witness :
    Reachable (state_after
        [call.allocate 100, call.allocate 50, call.release 0, call.release 100]) ∧
      (state_after
        [call.allocate 100, call.allocate 50, call.release 0, call.release 100]).mem_areas =
        [⟨3, ⟨0, 1000, mem_state_t.free⟩⟩] ∧
      (state_after
        [call.allocate 100, call.allocate 50, call.release 0,
          call.release 100]).mem_areas.map (fun n => n.val) =
        [⟨0, MEMORY_CAPACITY, mem_state_t.free⟩] ∧
      ∃ s1, malloc_ (state_after
        [call.allocate 100, call.allocate 50, call.release 0, call.release 100])
        MEMORY_CAPACITY = .ok (0, s1) :=
  ⟨reachable_state_after _, by decide,
    C20_full_recovery
      (state_after [call.allocate 100, call.allocate 50, call.release 0, call.release 100])
      (reachable_state_after _)
      (by
        intro a _
        show (if a = 100 then none else if a = 0 then none
          else if a = 100 then some 3 else if a = 0 then some 1 else none) = none
        split
        · rfl
        · split
          · rfl
          · rename_i h1 h2
            simp [h1, h2])⟩

end Allocator
